import Mathlib

/-!
Verification of the pakserve HTTP download server against its specification.

The development shallowly embeds the relevant Go source:
* the PAK archive codec (`pak/reader.go`: `Reader.init`, `Writer`),
* the server (`main.go`: `normalizeName`, `scanpak`, `scandir`'s sort
  comparator, `findSearchPath`, `parseAcceptEncoding`, the request
  `handler` with its `handleGzip`/`handleRaw`/`handleInflate` responses,
  and the `scanSearchPaths` reload path).

Byte sequences are modelled as `List Nat` (each element a byte value),
Go strings as `List Char` (the sources only exercise ASCII, where Go's
byte-wise operations agree with the character-wise model).  Fallible
operations return `Except`.  Filesystem and regexp effects are passed in
explicitly as functions.
-/

/-! ## Byte-level helpers -/

/-- Byte of `d` at index `i` (0 when out of range; all reads are guarded
by explicit length checks mirroring `binary.Read` failures). -/
def byteAt (d : List Nat) (i : Nat) : Nat := d.getD i 0

/-- Little-endian 32-bit read at offset `i`, as `binary.LittleEndian`. -/
def readU32 (d : List Nat) (i : Nat) : Nat :=
  byteAt d i + 256 * byteAt d (i + 1) + 65536 * byteAt d (i + 2) +
    16777216 * byteAt d (i + 3)

/-- Little-endian 32-bit encoding of `v % 2^32`. -/
def le32 (v : Nat) : List Nat :=
  [v % 256, v / 256 % 256, v / 65536 % 256, v / 16777216 % 256]

/-- `MaxOffset` from `pak/reader.go`: maximum size of a PAK file. -/
def maxOffset : Nat := 2 ^ 31 - 1

/-- `MaxFiles` from `pak/reader.go`. -/
def maxFiles : Nat := 4096

/-- `MaxFileName` from `pak/reader.go`. -/
def maxFileName : Nat := 56

/-- The `pakIdent` constant `'P'|'A'<<8|'C'<<16|'K'<<24` ("PACK"). -/
def pakIdentVal : Nat := 80 + 65 * 256 + 67 * 65536 + 75 * 16777216

/-- Go `uint32` subtraction `a - b` (wraps modulo `2^32`), for operands
already reduced modulo `2^32`. -/
def sub32 (a b : Nat) : Nat := (a + 2 ^ 32 - b) % 2 ^ 32

/-- Contiguous slice `[pos, pos+len)` of a byte list, as read through an
`io.SectionReader`. -/
def extract (d : List Nat) (pos len : Nat) : List Nat := (d.drop pos).take len

/-! ## PAK reader (`pak/reader.go`, `Reader.init`) -/

/-- One directory record as surfaced by the reader (`pak.File`). -/
structure PakFile where
  name : List Nat
  filepos : Nat
  filelen : Nat
deriving DecidableEq

/-- Errors of `Reader.init`.  `ioErr` stands for the non-format errors
propagated from `binary.Read` (truncated input); the rest are the
`errBad...` format errors. -/
inductive PakErr where
  | ioErr
  | badIdent
  | badDirLen
  | tooManyFiles
  | badDirOfs
  | badFileLen
  | badFilePos
deriving DecidableEq

/-- Whether an error is one of the reader's PAK format errors. -/
def PakErr.isFormat : PakErr → Bool
  | .ioErr => false
  | _ => true

/-- Result is a format-error rejection. -/
def isFormatErr {α : Type} : Except PakErr α → Bool
  | .error e => e.isFormat
  | .ok _ => false

/-- `bytes.IndexByte(name, 0)` truncation: the name bytes up to the
first zero byte, or all bytes when none occurs. -/
def takeName (bs : List Nat) : List Nat := bs.takeWhile (fun b => b != 0)

/-- Read and validate one 64-byte directory entry at absolute offset
`pos`, as in the loop body of `Reader.init`. -/
def readEntry (d : List Nat) (pos : Nat) : Except PakErr PakFile :=
  if pos + 64 ≤ d.length then
    let filepos := readU32 d (pos + 56)
    let filelen := readU32 d (pos + 60)
    if filelen > maxOffset then .error .badFileLen
    else if filepos > sub32 maxOffset filelen then .error .badFilePos
    else .ok ⟨takeName (extract d pos 56), filepos, filelen⟩
  else .error .ioErr

/-- Read `n` consecutive directory entries starting at `pos`, failing on
the first bad entry, as the directory loop of `Reader.init`. -/
def readDir (d : List Nat) (pos : Nat) : Nat → Except PakErr (List PakFile)
  | 0 => .ok []
  | n + 1 => do
    let e ← readEntry d pos
    let rest ← readDir d (pos + 64) n
    pure (e :: rest)

/-- `Reader.init` over the full byte contents of the archive: header
validation followed by the directory scan. -/
def pakInit (d : List Nat) : Except PakErr (List PakFile) :=
  if d.length < 12 then .error .ioErr
  else
    let ident := readU32 d 0
    let dirofs := readU32 d 4
    let dirlen := readU32 d 8
    if ident ≠ pakIdentVal then .error .badIdent
    else if dirlen % 64 ≠ 0 then .error .badDirLen
    else if dirlen / 64 > maxFiles then .error .tooManyFiles
    else if dirofs > sub32 maxOffset dirlen then .error .badDirOfs
    else readDir d dirofs (dirlen / 64)

/-- Directory entry `i` (counted from the directory start `dirofs`) is
in range of the data and its `filePos + fileLen` overflows `maxOffset`. -/
def entryViolates (d : List Nat) (dirofs i : Nat) : Prop :=
  dirofs + 64 * i + 64 ≤ d.length ∧
    readU32 d (dirofs + 64 * i + 56) + readU32 d (dirofs + 64 * i + 60) > maxOffset

instance (d : List Nat) (dirofs i : Nat) : Decidable (entryViolates d dirofs i) := by
  unfold entryViolates; infer_instance

/-! ## Go strings and `path.Clean` (slash-separated, pure) -/

/-- `strings.ToLower` on the ASCII subset: character-wise lowering. -/
def toLowerL (s : List Char) : List Char := s.map Char.toLower

/-- `strings.ReplaceAll(n, "\\", "/")`. -/
def replaceBS (s : List Char) : List Char :=
  s.map (fun c => if c = '\\' then '/' else c)

/-- Split a path into its '/'-separated segments (the spans scanned by
`path.Clean`; empty segments stand for repeated or edge slashes). -/
def splitSeg : List Char → List (List Char)
  | [] => [[]]
  | c :: rest =>
    if c = '/' then [] :: splitSeg rest
    else
      match splitSeg rest with
      | [] => [[c]]
      | s :: ss => (c :: s) :: ss

/-- Rejoin segments with '/' separators. -/
def joinSegs : List (List Char) → List Char
  | [] => []
  | [s] => s
  | s :: ss => s ++ '/' :: joinSegs ss

/-- The element-processing loop of `path.Clean`: `stack` holds already
emitted segments (most recent first).  Empty and "." segments are
dropped; ".." pops a poppable segment, is dropped at the root of a
rooted path, and is kept for an unrooted path that cannot backtrack. -/
def cleanStack (rooted : Bool) (stack : List (List Char)) :
    List (List Char) → List (List Char)
  | [] => stack.reverse
  | seg :: rest =>
    if seg = [] ∨ seg = ['.'] then cleanStack rooted stack rest
    else if seg = ['.', '.'] then
      if rooted then cleanStack rooted stack.tail rest
      else if stack ≠ [] ∧ stack.head? ≠ some ['.', '.'] then
        cleanStack rooted stack.tail rest
      else cleanStack rooted (seg :: stack) rest
    else cleanStack rooted (seg :: stack) rest

/-- `path.Clean`. -/
def cleanPath (p : List Char) : List Char :=
  if p = [] then ['.']
  else if p.head? = some '/' then '/' :: joinSegs (cleanStack true [] (splitSeg p))
  else
    let out := cleanStack false [] (splitSeg p)
    if out = [] then ['.'] else joinSegs out

/-- `normalizeName` from main.go: backslashes to slashes, rooted clean,
strip the leading slash, lowercase. -/
def normalizeName (n : List Char) : List Char :=
  toLowerL ((cleanPath ('/' :: replaceBS n)).drop 1)

/-! ## Segment lemmas for `path.Clean` -/

/-- Segments appearing in a fully cleaned rooted path: nonempty, not a
dot segment, and free of both separators. -/
def goodSeg (s : List Char) : Prop :=
  s ≠ [] ∧ s ≠ ['.'] ∧ s ≠ ['.', '.'] ∧ '/' ∉ s ∧ '\\' ∉ s

/-! ## Archive scan ordering (`scandir`'s sort comparator and `atoi`) -/

/-- Go string `<`: byte-wise (here character-wise) lexicographic order. -/
def lexLt : List Char → List Char → Bool
  | [], [] => false
  | [], _ :: _ => true
  | _ :: _, [] => false
  | c :: cs, d :: ds =>
    if c.toNat < d.toNat then true
    else if d.toNat < c.toNat then false
    else lexLt cs ds

/-- First maximal run of digits in the string, if any (the first field
of `strings.FieldsFunc(s, not-a-digit)`). -/
def firstDigits : List Char → Option (List Char)
  | [] => none
  | c :: rest =>
    if c.isDigit then some (c :: rest.takeWhile Char.isDigit)
    else firstDigits rest

/-- Decimal value of a digit run. -/
def digitsVal (ds : List Char) : Nat :=
  ds.foldl (fun acc c => acc * 10 + (c.toNat - 48)) 0

/-- `math.MaxInt64`: the upper bound of Go's `int` on a 64-bit
platform. -/
def maxGoInt : Nat := 2 ^ 63 - 1

/-- `atoi` from main.go: take the first maximal digit run, then
`strconv.Atoi` on it.  `Atoi` fails with `ErrSyntax` when there is no
digit run and with `ErrRange` when the value exceeds the `int` range
(`int64` on the 64-bit platforms modelled here); both error cases are
collapsed to `none`, as the comparator only branches on error vs
success. -/
def atoiGo (s : List Char) : Option Nat :=
  match firstDigits s with
  | none => none
  | some ds => if digitsVal ds > maxGoInt then none else some (digitsVal ds)

/-- `strings.HasPrefix(s, "pak")`. -/
def pakPre (s : List Char) : Bool := ['p', 'a', 'k'].isPrefixOf s

/-- Body of the `sort.Slice` comparator in `scandir`, after the two
names have been lowered.  NOTE the Go source binds `a :=
strings.ToLower(paks[j])` and `b := strings.ToLower(paks[i])` — the
arguments are swapped relative to the sort indices. -/
def cmpNames (a b : List Char) : Bool :=
  if pakPre a && pakPre b then
    match atoiGo a, atoiGo b with
    | some v1, some v2 => decide (v1 < v2)
    | _, _ => lexLt a b
  else if pakPre a then true
  else if pakPre b then false
  else lexLt a b

/-- The comparator handed to `sort.Slice`: element `u` (at index `i`)
sorts before element `v` (at index `j`) when the body, evaluated with
`a = ToLower(v)` and `b = ToLower(u)`, returns true. -/
def pakLess (u v : List Char) : Bool := cmpNames (toLowerL v) (toLowerL u)

/-- `sort.Slice(paks, less)` modelled as a comparison sort with the
same comparator (the example inputs have pairwise strictly ordered
keys, so any correct sort yields this unique order). -/
def sortPaks (l : List (List Char)) : List (List Char) :=
  List.insertionSort (fun u v => pakLess u v = true) l

/-! ## Search path resolution (`findSearchPath`) -/

/-- Entry metadata held per archived file (`PakFileEntry` in main.go). -/
structure PakFileEntry where
  offset : Nat
  size : Nat
  filecrc : Nat
  filelen : Nat
  mtime : Nat
  method : Nat
deriving DecidableEq

/-- One backing store: archive (with its entry map as an association
list) or directory sentinel (`files == nil`). -/
structure SearchPath where
  path : List Char
  files : Option (List (List Char × PakFileEntry))
deriving DecidableEq

/-- A compiled route: `FindStringIndex` of the compiled pattern is
abstracted as a function returning the leftmost match span, if any. -/
structure CompiledSearchPath where
  matchFn : List Char → Option (Nat × Nat)
  search : List SearchPath

/-- The loop of `findSearchPath`: scan routes in order, keeping the
match that starts at offset 0 and has strictly largest end. -/
def findLoop (s : List Char) (acc : Option (List SearchPath) × Nat) :
    List CompiledSearchPath → Option (List SearchPath) × Nat
  | [] => acc
  | r :: rest =>
    match r.matchFn s with
    | some (st, en) =>
      if st = 0 ∧ en > acc.2 then findLoop s (some r.search, en) rest
      else findLoop s acc rest
    | none => findLoop s acc rest

/-- `findSearchPath`: clean and lowercase the URL path, find the best
route, return its stores and the path with the matched prefix
stripped. -/
def findSearchPath (routes : List CompiledSearchPath) (urlPath : List Char) :
    Option (List SearchPath) × List Char :=
  let path := toLowerL (cleanPath urlPath)
  let best := findLoop path (none, 0) routes
  (best.1, path.drop best.2)

/-! ## Accept-Encoding parsing and response handlers -/

/-- Split a string at every occurrence of `sep` (`strings.Split`). -/
def splitOnChar (sep : Char) : List Char → List (List Char)
  | [] => [[]]
  | c :: rest =>
    if c = sep then [] :: splitOnChar sep rest
    else
      match splitOnChar sep rest with
      | [] => [[c]]
      | s :: ss => (c :: s) :: ss

/-- Go's `unicode.IsSpace` on the ASCII subset (`strings.TrimSpace`). -/
def isSpaceGo (c : Char) : Bool :=
  c = ' ' || c = '\t' || c = '\n' || c = '\x0b' || c = '\x0c' || c = '\r'

/-- `strings.TrimSpace` (ASCII whitespace). -/
def trimSpaceGo (s : List Char) : List Char :=
  (((s.dropWhile isSpaceGo).reverse).dropWhile isSpaceGo).reverse

/-- `parseAcceptEncoding`: fold over all Accept-Encoding header values,
splitting each at commas; returns (hasGzip, hasDeflate). -/
def parseAcceptEncoding (vals : List (List Char)) : Bool × Bool :=
  vals.foldl (fun acc value =>
    (splitOnChar ',' value).foldl (fun acc2 enc =>
      let e := toLowerL (trimSpaceGo enc)
      if e = "gzip".toList then (true, acc2.2)
      else if e = "deflate".toList then (acc2.1, true)
      else acc2) acc) (false, false)

/-- The observable part of an HTTP response: status, the headers the
server sets, and the body bytes written. -/
structure HttpResp where
  status : Nat
  contentType : Option (List Char)
  contentLength : Option Nat
  contentEncoding : Option (List Char)
  connClose : Bool
  body : List Nat
deriving DecidableEq

/-- The synthesized gzip framing of `handleGzip`: 10-byte header (magic
1F 8B, method 8, flags 0, entry mtime, extra flags 0, OS byte 3), the
raw stored deflate stream, and the 8-byte CRC-32/size trailer. -/
def gzipWrap (e : PakFileEntry) (raw : List Nat) : List Nat :=
  [31, 139, 8, 0] ++ le32 e.mtime ++ [0, 3] ++ raw ++ le32 e.filecrc ++ le32 e.filelen

/-- `handleGzip` (ct is the Content-Type already set by the handler). -/
def handleGzip (ct : List Char) (e : PakFileEntry) (rdr : Option (List Nat)) : HttpResp :=
  { status := 200, contentType := some ct,
    contentLength := some (e.size + 18),
    contentEncoding := some "gzip".toList, connClose := false,
    body := match rdr with | none => [] | some raw => gzipWrap e raw }

/-- `handleRaw`: raw stored bytes; the deflate content-encoding header
is set exactly when the entry is compressed. -/
def handleRaw (ct : List Char) (e : PakFileEntry) (rdr : Option (List Nat)) : HttpResp :=
  { status := 200, contentType := some ct,
    contentLength := some e.size,
    contentEncoding := if e.method ≠ 0 then some "deflate".toList else none,
    connClose := false,
    body := match rdr with | none => [] | some raw => raw }

/-- `handleInflate`: decompress on the fly; `inflateFn` abstracts
`compress/flate` (Go library code, not part of this repository). -/
def handleInflate (ct : List Char) (inflateFn : List Nat → List Nat)
    (e : PakFileEntry) (rdr : Option (List Nat)) : HttpResp :=
  { status := 200, contentType := some ct,
    contentLength := some e.filelen,
    contentEncoding := none, connClose := false,
    body := match rdr with | none => [] | some raw => inflateFn raw }

/-! ## The request handler -/

/-- Environment of the handler: configuration, compiled patterns (as
match functions) and filesystem effects (as explicit functions). -/
structure SrvEnv where
  contentType : List Char
  refererOk : List Char → Bool
  pakBlackMatches : List Char → Bool
  dirWhiteMatches : List Char → Bool
  routes : List CompiledSearchPath
  dirFile : List Char → List Char → Option (List Nat)
  archBytes : List Char → Option (List Nat)
  inflateFn : List Nat → List Nat
  osSep : Char

/-- An inbound request as seen by `handler`. -/
structure HttpRequest where
  urlPath : List Char
  referer : List Char
  acceptEnc : List (List Char)
  method : List Char
  proto11 : Bool

/-- `http.NotFound` / `w.WriteHeader(404)`: bare 404, no headers set. -/
def notFoundResp : HttpResp := ⟨404, none, none, none, false, []⟩

/-- `closeWithError(w, r, 403)`: connection-close on HTTP/1.1. -/
def forbiddenResp (p11 : Bool) : HttpResp := ⟨403, none, none, none, p11, []⟩

/-- Model of `http.ServeContent` for a successfully opened plain file
(no range or conditional headers in the model). -/
def dirResp (ct : List Char) (isHead : Bool) (bytes : List Nat) : HttpResp :=
  ⟨200, some ct, some bytes.length, none, false, if isHead then [] else bytes⟩

/-- Dispatch on an archive entry (`handler`'s packfile branch): set the
content type, then prefer gzip, then deflate, then inflate for
compressed entries; raw for stored entries. -/
def servePakEntry (env : SrvEnv) (e : PakFileEntry)
    (hasGzip hasDeflate isHead : Bool) (ab : List Nat) : HttpResp :=
  let rdr : Option (List Nat) := if isHead then none else some (extract ab e.offset e.size)
  if e.method ≠ 0 then
    if hasGzip then handleGzip env.contentType e rdr
    else if hasDeflate then handleRaw env.contentType e rdr
    else handleInflate env.contentType env.inflateFn e rdr
  else handleRaw env.contentType e rdr

/-- The backing-store loop of `handler`: first store that passes its
gate and yields the asset produces the response. -/
def serveLoop (env : SrvEnv) (asset : List Char)
    (allowPak allowDir hasGzip hasDeflate isHead : Bool) :
    List SearchPath → Option HttpResp
  | [] => none
  | s :: rest =>
    match s.files with
    | none =>
      if allowDir then
        match env.dirFile s.path asset with
        | some bytes => some (dirResp env.contentType isHead bytes)
        | none => serveLoop env asset allowPak allowDir hasGzip hasDeflate isHead rest
      else serveLoop env asset allowPak allowDir hasGzip hasDeflate isHead rest
    | some fl =>
      if allowPak then
        match fl.lookup asset with
        | some e =>
          match env.archBytes s.path with
          | some ab => some (servePakEntry env e hasGzip hasDeflate isHead ab)
          | none => serveLoop env asset allowPak allowDir hasGzip hasDeflate isHead rest
        | none => serveLoop env asset allowPak allowDir hasGzip hasDeflate isHead rest
      else serveLoop env asset allowPak allowDir hasGzip hasDeflate isHead rest

/-- Whether some backing store yields the asset (the loop succeeds). -/
def anyHit (env : SrvEnv) (asset : List Char) (allowPak allowDir : Bool) :
    List SearchPath → Bool
  | [] => false
  | s :: rest =>
    match s.files with
    | none =>
      (allowDir && (env.dirFile s.path asset).isSome) ||
        anyHit env asset allowPak allowDir rest
    | some fl =>
      (allowPak && (fl.lookup asset).isSome && (env.archBytes s.path).isSome) ||
        anyHit env asset allowPak allowDir rest

/-- `handler` from main.go: separator check, referer check, route
resolution, access gates, then the backing-store loop. -/
def handler (env : SrvEnv) (req : HttpRequest) : HttpResp :=
  if env.osSep != '/' && req.urlPath.contains env.osSep then forbiddenResp req.proto11
  else if !(env.refererOk req.referer) then forbiddenResp req.proto11
  else
    let fsp := findSearchPath env.routes req.urlPath
    match fsp.1 with
    | none => notFoundResp
    | some stores =>
      if fsp.2 = [] then notFoundResp
      else
        let asset := fsp.2
        let allowPak := !(env.pakBlackMatches asset)
        let allowDir := env.dirWhiteMatches asset
        if allowPak = false ∧ allowDir = false then notFoundResp
        else
          let ge := parseAcceptEncoding req.acceptEnc
          match serveLoop env asset allowPak allowDir ge.1 ge.2
              (req.method = "HEAD".toList) stores with
          | some resp => resp
          | none => notFoundResp

/-! ## Reload coordinator trace (`scanSearchPaths`) -/

/-- Observable events of one reload: taking/releasing the write lock on
`searchPathsMutex`, scanning one configured directory (`scandir`, which
does filesystem I/O), and writing the published table
(`searchPaths`/`dirCache` assignments and appends). -/
inductive RlEvent where
  | lockW
  | unlockW
  | scanDir (dir : List Char)
  | tableWrite
deriving DecidableEq

/-- The event trace of `scanSearchPaths`: it locks first, resets the
table and cache, then for every configured route scans each of its
directories and appends the compiled route, and only then unlocks. -/
def reloadTrace (cfg : List (List Char × List (List Char))) : List RlEvent :=
  RlEvent.lockW :: RlEvent.tableWrite ::
    (cfg.foldr (fun c acc => (c.2.map RlEvent.scanDir) ++ RlEvent.tableWrite :: acc)
      [RlEvent.unlockW])

/-- True when some `scanDir` event occurs while the write lock is held
(`held` is the lock state entering the trace). -/
def scansWhileLocked (held : Bool) : List RlEvent → Bool
  | [] => false
  | RlEvent.lockW :: rest => scansWhileLocked true rest
  | RlEvent.unlockW :: rest => scansWhileLocked false rest
  | RlEvent.scanDir _ :: rest => held || scansWhileLocked held rest
  | RlEvent.tableWrite :: rest => scansWhileLocked held rest

/-- True when some `scanDir` event occurs while the lock is NOT held. -/
def scansWhileUnlocked (held : Bool) : List RlEvent → Bool
  | [] => false
  | RlEvent.lockW :: rest => scansWhileUnlocked true rest
  | RlEvent.unlockW :: rest => scansWhileUnlocked false rest
  | RlEvent.scanDir _ :: rest => !held || scansWhileUnlocked held rest
  | RlEvent.tableWrite :: rest => scansWhileUnlocked held rest

/-- True when some table write occurs while the lock is NOT held. -/
def writesWhileUnlocked (held : Bool) : List RlEvent → Bool
  | [] => false
  | RlEvent.lockW :: rest => writesWhileUnlocked true rest
  | RlEvent.unlockW :: rest => writesWhileUnlocked false rest
  | RlEvent.scanDir _ :: rest => writesWhileUnlocked held rest
  | RlEvent.tableWrite :: rest => !held || writesWhileUnlocked held rest

/-! ## PAK writer (`pak/reader.go`, `Writer`) -/

/-- One pending directory record of the writer (`pakEntry`; the name is
stored raw here and zero-padded to 56 bytes on encoding). -/
structure WFile where
  name : List Nat
  filepos : Nat
  filelen : Nat
deriving DecidableEq

/-- Writer state: content region written so far (after the 12-byte
header), pending directory records, and the write cursor. -/
structure WriterSt where
  content : List Nat
  files : List WFile
  offset : Nat
deriving DecidableEq

/-- Writer errors (`errNameTooLong` etc.). -/
inductive WErr where
  | nameTooLong
  | tooManyFilesW
  | fileNotOpen
  | fileTooBig
  | badDirOfsW
deriving DecidableEq

/-- `NewWriter`: zero header written, cursor after the header. -/
def newWriter : WriterSt := ⟨[], [], 12⟩

/-- `finishEntry`: set the last record's length to `cursor − filePos`. -/
def setLastLen (files : List WFile) (off : Nat) : List WFile :=
  match files with
  | [] => []
  | [f] => [⟨f.name, f.filepos, off - f.filepos⟩]
  | f :: rest => f :: setLastLen rest off

/-- `Writer.Create`: finalize the previous entry, validate the name
length and entry count, open a new entry at the cursor. -/
def wcreate (name : List Nat) (st : WriterSt) : Except WErr WriterSt :=
  let files1 := setLastLen st.files st.offset
  if name.length > maxFileName then .error .nameTooLong
  else if files1.length ≥ maxFiles then .error .tooManyFilesW
  else .ok ⟨st.content, files1 ++ [⟨name, st.offset, 0⟩], st.offset⟩

/-- `Writer.Write`: append content bytes and advance the cursor. -/
def wwrite (p : List Nat) (st : WriterSt) : Except WErr WriterSt :=
  if st.files.length = 0 then .error .fileNotOpen
  else if st.offset > maxOffset - p.length then .error .fileTooBig
  else .ok ⟨st.content ++ p, st.files, st.offset + p.length⟩

/-- One 64-byte directory record: zero-padded 56-byte name, filePos,
fileLen, little-endian. -/
def encEntry (f : WFile) : List Nat :=
  (f.name ++ List.replicate (56 - f.name.length) 0) ++ le32 f.filepos ++ le32 f.filelen

/-- Encoded directory. -/
def encDir (files : List WFile) : List Nat :=
  files.foldr (fun f acc => encEntry f ++ acc) []

/-- `Writer.Close` (via `finish`): finalize the last entry, append the
directory at the cursor, and rewrite the header with the directory
offset and length.  Returns the full byte contents of the file. -/
def wclose (st : WriterSt) : Except WErr (List Nat) :=
  let files1 := setLastLen st.files st.offset
  let dirLen := 64 * files1.length
  if st.offset > maxOffset - dirLen then .error .badDirOfsW
  else .ok (le32 pakIdentVal ++ le32 st.offset ++ le32 dirLen ++ st.content ++ encDir files1)

/-- Write a sequence of (name, content) entries: `Create` then `Write`
for each. -/
def runEntries : List (List Nat × List Nat) → WriterSt → Except WErr WriterSt
  | [], st => .ok st
  | e :: rest, st => do
    let st1 ← wcreate e.1 st
    let st2 ← wwrite e.2 st1
    runEntries rest st2

/-- Full writer run: entries then `Close`, yielding the archive bytes. -/
def writeAll (es : List (List Nat × List Nat)) : Except WErr (List Nat) := do
  let st ← runEntries es newWriter
  wclose st

/-- Total content length of an entry sequence. -/
def totalLen : List (List Nat × List Nat) → Nat
  | [] => 0
  | e :: rest => e.2.length + totalLen rest

/-- Concatenated content region. -/
def contentsFrom : List (List Nat × List Nat) → List Nat
  | [] => []
  | e :: rest => e.2 ++ contentsFrom rest

/-- Expected (finalized) directory records for entries laid out
starting at offset `base`. -/
def wfilesFrom (base : Nat) : List (List Nat × List Nat) → List WFile
  | [] => []
  | e :: rest => ⟨e.1, base, e.2.length⟩ :: wfilesFrom (base + e.2.length) rest

/-- Zero out the last record's length (the dangling state between the
last `Write` and the finalizing `Create`/`Close`). -/
def zeroLast : List WFile → List WFile
  | [] => []
  | [f] => [⟨f.name, f.filepos, 0⟩]
  | f :: rest => f :: zeroLast rest

/-- A concrete environment used to instantiate theorems with
hypotheses at specific inputs. -/
def envEx : SrvEnv :=
  ⟨"application/octet-stream".toList, fun _ => true, fun _ => false,
    fun _ => false, [], fun _ _ => none, fun _ => none, fun r => r, '/'⟩

/-- A concrete deflate-compressed entry. -/
def entryEx : PakFileEntry := ⟨20, 4, 305419896, 11, 1700000000, 8⟩

/-- The resolved route's stores yield the asset (under the gates). -/
def hitOf (env : SrvEnv) (req : HttpRequest) : Bool :=
  match (findSearchPath env.routes req.urlPath).1 with
  | none => false
  | some stores =>
    anyHit env (findSearchPath env.routes req.urlPath).2
      (!(env.pakBlackMatches (findSearchPath env.routes req.urlPath).2))
      (env.dirWhiteMatches (findSearchPath env.routes req.urlPath).2) stores

/-- A concrete request used for witnesses. -/
def reqEx : HttpRequest := ⟨"/x/y".toList, [], [], "GET".toList, true⟩

/-- An environment for the C6 witness: one route matching everything
rooted, one archive store containing only "secret.cfg", with a
blacklist rejecting "secret.cfg" and an empty directory whitelist. -/
def envC6 : SrvEnv :=
  ⟨"application/octet-stream".toList, fun _ => true,
    fun s => s = "secret.cfg".toList,
    fun _ => false,
    [⟨fun s => if ('/' :: []).isPrefixOf s then some (0, 1) else none,
      [⟨"arch.pak".toList, some [("secret.cfg".toList, entryEx)]⟩]⟩],
    fun _ _ => none, fun _ => some (List.replicate 24 7), fun r => r, '/'⟩

/-- Requests for the C6 witness: one asking for the blacklisted
"secret.cfg", one asking for an absent "missing.dat". -/
def reqC6a : HttpRequest := ⟨"/secret.cfg".toList, [], [], "GET".toList, true⟩

/-- Second C6 witness request. -/
def reqC6b : HttpRequest := ⟨"/missing.dat".toList, [], [], "GET".toList, true⟩

/-- Compiled route for the pattern `^/a/` (anchored regex: leftmost
match exists exactly at offset 0 when the pattern is a prefix). -/
def routeA : CompiledSearchPath :=
  ⟨fun s => if ("/a/".toList).isPrefixOf s then some (0, 3) else none,
    [⟨"roota".toList, none⟩]⟩

/-- Compiled route for the pattern `^/a/b/`. -/
def routeB : CompiledSearchPath :=
  ⟨fun s => if ("/a/b/".toList).isPrefixOf s then some (0, 5) else none,
    [⟨"rootb".toList, none⟩]⟩

/-! ## C10: path containment -/

/-- A route whose pattern match can end in the middle of a path
segment (like an unconventional `^/x` pattern with no trailing
slash). -/
def routeX : CompiledSearchPath :=
  ⟨fun s => if ("/x".toList).isPrefixOf s then some (0, 2) else none,
    [⟨"rootx".toList, none⟩]⟩

/-- Whether the string contains a ".." path segment. -/
def hasDotDotSeg (s : List Char) : Bool :=
  (splitSeg s).any (fun seg => seg == ['.', '.'])

/-- Segment shape preserved by a rooted clean (no backslash clause:
request paths may legitimately contain backslashes on a Unix host). -/
def okSeg (s : List Char) : Prop :=
  s ≠ [] ∧ s ≠ ['.'] ∧ s ≠ ['.', '.'] ∧ '/' ∉ s

/-! ## C7: writer/reader round trip -/

/-- Observable round trip of the names through writer then reader. -/
def roundTripNames (es : List (List Nat × List Nat)) : Option (List (List Nat)) :=
  match writeAll es with
  | .error _ => none
  | .ok bytes =>
    match pakInit bytes with
    | .error _ => none
    | .ok fs => some (fs.map PakFile.name)

/-! ## C1 lemmas -/

theorem exBindErr {ε α β : Type} (er : ε) (f : α → Except ε β) :
    (Except.error er >>= f) = (Except.error er : Except ε β) := rfl

theorem exBindOk {ε α β : Type} (a : α) (f : α → Except ε β) :
    (Except.ok a >>= f) = f a := rfl

theorem sub32_no_wrap (b : Nat) (hb : b ≤ maxOffset) :
    sub32 maxOffset b = maxOffset - b := by
  unfold sub32 maxOffset at *
  omega

theorem entryViolates_shift (d : List Nat) (pos i : Nat) :
    entryViolates d (pos + 64) i ↔ entryViolates d pos (i + 1) := by
  unfold entryViolates
  rw [show pos + 64 + 64 * i = pos + 64 * (i + 1) by ring]

theorem readDir_formatErr_iff (d : List Nat) :
    ∀ (n pos : Nat),
      isFormatErr (readDir d pos n) = true ↔ ∃ i, i < n ∧ entryViolates d pos i := by
  intro n
  induction n with
  | zero =>
    intro pos
    constructor
    · intro h
      simp [readDir, isFormatErr] at h
    · rintro ⟨i, hi, _⟩
      omega
  | succ n ih =>
    intro pos
    rw [readDir]
    by_cases h64 : pos + 64 ≤ d.length
    · by_cases hfl : readU32 d (pos + 60) > maxOffset
      · have hE : readEntry d pos = .error .badFileLen := by
          unfold readEntry
          simp [h64, hfl]
        rw [hE, exBindErr]
        constructor
        · intro _
          refine ⟨0, Nat.succ_pos n, ?_, ?_⟩
          · simpa using h64
          · simp only [Nat.mul_zero, Nat.add_zero]
            omega
        · intro _
          rfl
      · by_cases hfp : readU32 d (pos + 56) > sub32 maxOffset (readU32 d (pos + 60))
        · have hE : readEntry d pos = .error .badFilePos := by
            unfold readEntry
            simp [h64, hfl, hfp]
          rw [hE, exBindErr]
          have hsub := sub32_no_wrap (readU32 d (pos + 60)) (by omega)
          constructor
          · intro _
            refine ⟨0, Nat.succ_pos n, ?_, ?_⟩
            · simpa using h64
            · simp only [Nat.mul_zero, Nat.add_zero]
              omega
          · intro _
            rfl
        · have hE : readEntry d pos =
              .ok ⟨takeName (extract d pos 56), readU32 d (pos + 56), readU32 d (pos + 60)⟩ := by
            unfold readEntry
            simp [h64, hfl, hfp]
          rw [hE, exBindOk]
          have hsub := sub32_no_wrap (readU32 d (pos + 60)) (by omega)
          have hnv0 : ¬ entryViolates d pos 0 := by
            unfold entryViolates
            simp only [Nat.mul_zero, Nat.add_zero]
            omega
          have hstep : isFormatErr
              (readDir d (pos + 64) n >>= fun rest =>
                pure (PakFile.mk (takeName (extract d pos 56))
                  (readU32 d (pos + 56)) (readU32 d (pos + 60)) :: rest)) =
              isFormatErr (readDir d (pos + 64) n) := by
            rcases hR : readDir d (pos + 64) n with er | l
            · rw [exBindErr]
            · rw [exBindOk]
              rfl
          rw [hstep, ih]
          constructor
          · rintro ⟨i, hi, hv⟩
            exact ⟨i + 1, by omega, (entryViolates_shift d pos i).mp hv⟩
          · rintro ⟨i, hi, hv⟩
            match i with
            | 0 => exact absurd hv hnv0
            | j + 1 => exact ⟨j, by omega, (entryViolates_shift d pos j).mpr hv⟩
    · have hE : readEntry d pos = .error .ioErr := by
        unfold readEntry
        simp [h64]
      rw [hE, exBindErr]
      constructor
      · intro h
        simp [isFormatErr, PakErr.isFormat] at h
      · rintro ⟨i, hi, hv, _⟩
        omega

theorem readDir_ok_bounds (d : List Nat) :
    ∀ (n pos : Nat) (fs : List PakFile), readDir d pos n = .ok fs →
      fs.length = n ∧ ∀ f ∈ fs, f.filepos + f.filelen ≤ maxOffset := by
  intro n
  induction n with
  | zero =>
    intro pos fs h
    simp [readDir] at h
    subst h
    simp
  | succ n ih =>
    intro pos fs h
    rw [readDir] at h
    by_cases h64 : pos + 64 ≤ d.length
    · by_cases hfl : readU32 d (pos + 60) > maxOffset
      · have hE : readEntry d pos = .error .badFileLen := by
          unfold readEntry
          simp [h64, hfl]
        rw [hE, exBindErr] at h
        cases h
      · by_cases hfp : readU32 d (pos + 56) > sub32 maxOffset (readU32 d (pos + 60))
        · have hE : readEntry d pos = .error .badFilePos := by
            unfold readEntry
            simp [h64, hfl, hfp]
          rw [hE, exBindErr] at h
          cases h
        · have hE : readEntry d pos =
              .ok ⟨takeName (extract d pos 56), readU32 d (pos + 56), readU32 d (pos + 60)⟩ := by
            unfold readEntry
            simp [h64, hfl, hfp]
          rw [hE, exBindOk] at h
          rcases hR : readDir d (pos + 64) n with er | l
          · rw [hR, exBindErr] at h
            cases h
          · rw [hR, exBindOk] at h
            have hl := ih (pos + 64) l hR
            have hsub := sub32_no_wrap (readU32 d (pos + 60)) (by omega)
            cases h
            constructor
            · simp [hl.1]
            · intro f hf
              rcases List.mem_cons.mp hf with hf | hf
              · subst hf
                simp only
                omega
              · exact hl.2 f hf
    · have hE : readEntry d pos = .error .ioErr := by
        unfold readEntry
        simp [h64]
      rw [hE, exBindErr] at h
      cases h

/-- C1: opening a byte sequence as a PAK archive via `Reader.init` fails
with a format error exactly when the ident differs from "PACK", the
directory length is not a multiple of 64, the entry count exceeds 4096,
`dirOffset + dirLength` exceeds `2^31 - 1`, or some readable directory
entry has `filePos + fileLen` exceeding `2^31 - 1` (a too-short input
that prevents even reading the header is an I/O error instead); and a
successfully opened archive never silently truncates: it surfaces
exactly `dirLength / 64` entries, all within the offset ceiling. -/
theorem c1_read_format_errors (d : List Nat) :
    (isFormatErr (pakInit d) = true ↔
      12 ≤ d.length ∧
        (readU32 d 0 ≠ pakIdentVal ∨
         readU32 d 8 % 64 ≠ 0 ∨
         readU32 d 8 / 64 > maxFiles ∨
         readU32 d 4 + readU32 d 8 > maxOffset ∨
         ∃ i, i < readU32 d 8 / 64 ∧ entryViolates d (readU32 d 4) i)) ∧
    (∀ fs, pakInit d = .ok fs →
      fs.length = readU32 d 8 / 64 ∧ ∀ f ∈ fs, f.filepos + f.filelen ≤ maxOffset) := by
  unfold pakInit
  by_cases hlen : d.length < 12
  · rw [if_pos hlen]
    refine ⟨⟨fun h => ?_, fun h => ?_⟩, fun fs h => by cases h⟩
    · simp [isFormatErr, PakErr.isFormat] at h
    · omega
  · rw [if_neg hlen]
    by_cases hid : readU32 d 0 ≠ pakIdentVal
    · rw [if_pos hid]
      exact ⟨⟨fun _ => ⟨by omega, Or.inl hid⟩, fun _ => rfl⟩, fun fs h => by cases h⟩
    · rw [if_neg hid]
      push_neg at hid
      by_cases hmod : readU32 d 8 % 64 ≠ 0
      · rw [if_pos hmod]
        exact ⟨⟨fun _ => ⟨by omega, Or.inr (Or.inl hmod)⟩, fun _ => rfl⟩,
          fun fs h => by cases h⟩
      · rw [if_neg hmod]
        push_neg at hmod
        by_cases hcnt : readU32 d 8 / 64 > maxFiles
        · rw [if_pos hcnt]
          exact ⟨⟨fun _ => ⟨by omega, Or.inr (Or.inr (Or.inl hcnt))⟩, fun _ => rfl⟩,
            fun fs h => by cases h⟩
        · rw [if_neg hcnt]
          push_neg at hcnt
          have hdlM : readU32 d 8 ≤ maxOffset := by
            have h1 : readU32 d 8 = 64 * (readU32 d 8 / 64) + readU32 d 8 % 64 :=
              (Nat.div_add_mod _ 64).symm
            unfold maxOffset
            unfold maxFiles at hcnt
            omega
          have hsub := sub32_no_wrap (readU32 d 8) hdlM
          by_cases hofs : readU32 d 4 > sub32 maxOffset (readU32 d 8)
          · rw [if_pos hofs]
            rw [hsub] at hofs
            refine ⟨⟨fun _ => ⟨by omega, Or.inr (Or.inr (Or.inr (Or.inl (by omega))))⟩,
              fun _ => rfl⟩, fun fs h => by cases h⟩
          · rw [if_neg hofs]
            rw [hsub] at hofs
            push_neg at hofs
            constructor
            · rw [readDir_formatErr_iff]
              constructor
              · intro hv
                exact ⟨by omega, Or.inr (Or.inr (Or.inr (Or.inr hv)))⟩
              · rintro ⟨_, hv | hv | hv | hv | hv⟩
                · exact absurd hid hv
                · exact absurd hmod hv
                · omega
                · omega
                · exact hv
            · intro fs h
              exact readDir_ok_bounds d (readU32 d 8 / 64) (readU32 d 4) fs h

/-- Witness for C1 at a concrete all-zero 12-byte input (bad ident). -/
theorem c1_read_format_errors_witness :
    isFormatErr (pakInit (List.replicate 12 0)) = true :=
  (c1_read_format_errors (List.replicate 12 0)).1.mpr
    ⟨by decide, Or.inl (by decide)⟩

/-! ## Character-level facts about ASCII lowering (`strings.ToLower` on
the ASCII subset, which is `Char.toLower` character-wise) -/

theorem char_ofNat_toNat_valid (n : Nat) (h : n < 55296) : (Char.ofNat n).toNat = n := by
  unfold Char.ofNat
  rw [dif_pos (Or.inl h)]
  rfl

theorem toLower_spec (c : Char) :
    (65 ≤ c.toNat ∧ c.toNat ≤ 90 ∧ (Char.toLower c).toNat = c.toNat + 32) ∨
    (¬(65 ≤ c.toNat ∧ c.toNat ≤ 90) ∧ Char.toLower c = c) := by
  unfold Char.toLower
  by_cases h : c.toNat ≥ 65 ∧ c.toNat ≤ 90
  · left
    refine ⟨h.1, h.2, ?_⟩
    simp only [if_pos h]
    exact char_ofNat_toNat_valid (c.toNat + 32) (by omega)
  · right
    refine ⟨h, ?_⟩
    simp only [if_neg h]

theorem toLower_fix {d : Char} (hd : ¬(97 ≤ d.toNat ∧ d.toNat ≤ 122)) (c : Char)
    (h : Char.toLower c = d) : c = d := by
  rcases toLower_spec c with ⟨h1, h2, h3⟩ | ⟨h1, h2⟩
  · rw [h] at h3
    omega
  · exact h2.symm.trans h

theorem toLower_idem (c : Char) : Char.toLower (Char.toLower c) = Char.toLower c := by
  rcases toLower_spec c with ⟨h1, h2, h3⟩ | ⟨h1, h2⟩
  · rcases toLower_spec (Char.toLower c) with ⟨g1, g2, g3⟩ | ⟨g1, g2⟩
    · omega
    · exact g2
  · rw [h2, h2]

example : cleanPath "/a/b/../c".toList = "/a/c".toList := by decide

example : cleanPath "a/..".toList = ".".toList := by decide

example : cleanPath "../../a//b/".toList = "../../a/b".toList := by decide

example : cleanPath "/..".toList = "/".toList := by decide

example : normalizeName "A\\Foo.BSP".toList = "a/foo.bsp".toList := by decide

example : normalizeName "/a/foo.bsp".toList = "a/foo.bsp".toList := by decide

theorem splitSeg_ne_nil (p : List Char) : splitSeg p ≠ [] := by
  cases p with
  | nil => simp [splitSeg]
  | cons c rest =>
    rw [splitSeg]
    by_cases hc : c = '/'
    · simp [hc]
    · rw [if_neg hc]
      rcases h : splitSeg rest with _ | ⟨s, ss⟩ <;> simp

theorem splitSeg_no_slash (p : List Char) : ∀ s ∈ splitSeg p, '/' ∉ s := by
  induction p with
  | nil =>
    intro s hs
    simp [splitSeg] at hs
    simp [hs]
  | cons c rest ih =>
    intro s hs
    rw [splitSeg] at hs
    by_cases hc : c = '/'
    · rw [if_pos hc] at hs
      rcases List.mem_cons.mp hs with h | h
      · simp [h]
      · exact ih s h
    · rw [if_neg hc] at hs
      rcases h : splitSeg rest with _ | ⟨s0, ss⟩
      · exact absurd h (splitSeg_ne_nil rest)
      · rw [h] at hs
        rcases List.mem_cons.mp hs with h2 | h2
        · subst h2
          intro hmem
          rcases List.mem_cons.mp hmem with h3 | h3
          · exact hc h3.symm
          · exact ih s0 (by rw [h]; exact List.mem_cons_self s0 ss) h3
        · exact ih s (by rw [h]; exact List.mem_cons_of_mem s0 h2)

theorem mem_of_mem_splitSeg (p : List Char) :
    ∀ s ∈ splitSeg p, ∀ c ∈ s, c ∈ p := by
  induction p with
  | nil =>
    intro s hs c hc
    simp [splitSeg] at hs
    subst hs
    cases hc
  | cons a rest ih =>
    intro s hs c hc
    rw [splitSeg] at hs
    by_cases ha : a = '/'
    · rw [if_pos ha] at hs
      rcases List.mem_cons.mp hs with h | h
      · subst h
        cases hc
      · exact List.mem_cons_of_mem a (ih s h c hc)
    · rw [if_neg ha] at hs
      rcases h : splitSeg rest with _ | ⟨s0, ss⟩
      · exact absurd h (splitSeg_ne_nil rest)
      · rw [h] at hs
        rcases List.mem_cons.mp hs with h2 | h2
        · subst h2
          rcases List.mem_cons.mp hc with h3 | h3
          · exact h3 ▸ List.mem_cons_self a rest
          · exact List.mem_cons_of_mem a
              (ih s0 (by rw [h]; exact List.mem_cons_self s0 ss) c h3)
        · exact List.mem_cons_of_mem a
            (ih s (by rw [h]; exact List.mem_cons_of_mem s0 h2) c hc)

theorem cleanStack_mem_true :
    ∀ (segs stack : List (List Char)), ∀ s ∈ cleanStack true stack segs,
      s ∈ stack ∨ s ∈ segs := by
  intro segs
  induction segs with
  | nil =>
    intro stack s hs
    rw [cleanStack] at hs
    exact Or.inl (List.mem_reverse.mp hs)
  | cons seg rest ih =>
    intro stack s hs
    rw [cleanStack] at hs
    by_cases h1 : seg = [] ∨ seg = ['.']
    · rw [if_pos h1] at hs
      rcases ih stack s hs with h | h
      · exact Or.inl h
      · exact Or.inr (List.mem_cons_of_mem seg h)
    · rw [if_neg h1] at hs
      by_cases h2 : seg = ['.', '.']
      · rw [if_pos h2, if_pos rfl] at hs
        rcases ih stack.tail s hs with h | h
        · exact Or.inl (List.mem_of_mem_tail h)
        · exact Or.inr (List.mem_cons_of_mem seg h)
      · rw [if_neg h2] at hs
        rcases ih (seg :: stack) s hs with h | h
        · rcases List.mem_cons.mp h with h3 | h3
          · exact Or.inr (h3 ▸ List.mem_cons_self seg rest)
          · exact Or.inl h3
        · exact Or.inr (List.mem_cons_of_mem seg h)

theorem cleanStack_good :
    ∀ (segs stack : List (List Char)), (∀ s ∈ stack, goodSeg s) →
      (∀ s ∈ segs, '/' ∉ s ∧ '\\' ∉ s) →
      ∀ s ∈ cleanStack true stack segs, goodSeg s := by
  intro segs
  induction segs with
  | nil =>
    intro stack hst _ s hs
    rw [cleanStack] at hs
    exact hst s (List.mem_reverse.mp hs)
  | cons seg rest ih =>
    intro stack hst hin s hs
    rw [cleanStack] at hs
    by_cases h1 : seg = [] ∨ seg = ['.']
    · rw [if_pos h1] at hs
      exact ih stack hst (fun t ht => hin t (List.mem_cons_of_mem seg ht)) s hs
    · rw [if_neg h1] at hs
      by_cases h2 : seg = ['.', '.']
      · rw [if_pos h2, if_pos rfl] at hs
        exact ih stack.tail (fun t ht => hst t (List.mem_of_mem_tail ht))
          (fun t ht => hin t (List.mem_cons_of_mem seg ht)) s hs
      · rw [if_neg h2] at hs
        push_neg at h1
        have hseg : goodSeg seg :=
          ⟨h1.1, h1.2, h2, (hin seg (List.mem_cons_self seg rest)).1,
            (hin seg (List.mem_cons_self seg rest)).2⟩
        refine ih (seg :: stack) ?_ (fun t ht => hin t (List.mem_cons_of_mem seg ht)) s hs
        intro t ht
        rcases List.mem_cons.mp ht with h | h
        · exact h ▸ hseg
        · exact hst t h

theorem cleanStack_fixed :
    ∀ (segs stack : List (List Char)), (∀ s ∈ segs, goodSeg s) →
      cleanStack true stack segs = stack.reverse ++ segs := by
  intro segs
  induction segs with
  | nil =>
    intro stack _
    rw [cleanStack, List.append_nil]
  | cons seg rest ih =>
    intro stack hg
    have hseg := hg seg (List.mem_cons_self seg rest)
    rw [cleanStack]
    rw [if_neg (by rintro (h | h) <;> [exact hseg.1 h; exact hseg.2.1 h])]
    rw [if_neg hseg.2.2.1]
    rw [ih (seg :: stack) (fun t ht => hg t (List.mem_cons_of_mem seg ht))]
    rw [List.reverse_cons, List.append_assoc]
    rfl

theorem splitSeg_single (s : List Char) (h : '/' ∉ s) : splitSeg s = [s] := by
  induction s with
  | nil => rfl
  | cons c rest ih =>
    have hc : c ≠ '/' := fun hc => h (hc ▸ List.mem_cons_self c rest)
    rw [splitSeg, if_neg hc, ih (fun hm => h (List.mem_cons_of_mem c hm))]

theorem splitSeg_append (s t : List Char) (h : '/' ∉ s) :
    splitSeg (s ++ '/' :: t) = s :: splitSeg t := by
  induction s with
  | nil =>
    rw [List.nil_append, splitSeg, if_pos rfl]
  | cons c rest ih =>
    have hc : c ≠ '/' := fun hc => h (hc ▸ List.mem_cons_self c rest)
    rw [List.cons_append, splitSeg, if_neg hc,
      ih (fun hm => h (List.mem_cons_of_mem c hm))]

theorem joinSegs_pair (s s2 : List Char) (ss : List (List Char)) :
    joinSegs (s :: s2 :: ss) = s ++ '/' :: joinSegs (s2 :: ss) := rfl

theorem splitSeg_joinSegs :
    ∀ segs : List (List Char), segs ≠ [] → (∀ s ∈ segs, '/' ∉ s) →
      splitSeg (joinSegs segs) = segs := by
  intro segs
  induction segs with
  | nil => intro h _; exact absurd rfl h
  | cons s ss ih =>
    intro _ hs
    cases ss with
    | nil =>
      rw [joinSegs]
      exact splitSeg_single s (hs s (List.mem_cons_self s []))
    | cons s2 ss2 =>
      rw [joinSegs_pair, splitSeg_append s _ (hs s (List.mem_cons_self s _)),
        ih (List.cons_ne_nil s2 ss2) (fun t ht => hs t (List.mem_cons_of_mem s ht))]

theorem toLowerL_joinSegs :
    ∀ segs : List (List Char),
      toLowerL (joinSegs segs) = joinSegs (segs.map toLowerL) := by
  intro segs
  induction segs with
  | nil => rfl
  | cons s ss ih =>
    cases ss with
    | nil => rfl
    | cons s2 ss2 =>
      rw [joinSegs_pair]
      have h1 : toLowerL (s ++ '/' :: joinSegs (s2 :: ss2)) =
          toLowerL s ++ '/' :: toLowerL (joinSegs (s2 :: ss2)) := by
        simp [toLowerL, show Char.toLower '/' = '/' from by decide]
      rw [h1, ih]
      rfl

theorem toLowerL_idem (s : List Char) : toLowerL (toLowerL s) = toLowerL s := by
  rw [toLowerL, toLowerL, List.map_map]
  exact List.map_congr_left (fun c _ => toLower_idem c)

theorem toLowerL_singleton_fix {d : Char} (hd : ¬(97 ≤ d.toNat ∧ d.toNat ≤ 122))
    (s : List Char) (h : toLowerL s = [d]) : s = [d] := by
  cases s with
  | nil => cases h
  | cons c rest =>
    rw [toLowerL, List.map_cons] at h
    have h1 : Char.toLower c = d := (List.cons_eq_cons.mp h).1
    have h2 : rest = [] := List.map_eq_nil.mp (List.cons_eq_cons.mp h).2
    rw [h2, toLower_fix hd c h1]

theorem toLowerL_pair_fix {d e : Char} (hd : ¬(97 ≤ d.toNat ∧ d.toNat ≤ 122))
    (he : ¬(97 ≤ e.toNat ∧ e.toNat ≤ 122))
    (s : List Char) (h : toLowerL s = [d, e]) : s = [d, e] := by
  cases s with
  | nil => cases h
  | cons c rest =>
    rw [toLowerL, List.map_cons] at h
    have h1 : Char.toLower c = d := (List.cons_eq_cons.mp h).1
    have h2 : toLowerL rest = [e] := (List.cons_eq_cons.mp h).2
    rw [toLower_fix hd c h1, toLowerL_singleton_fix he rest h2]

theorem toLowerL_not_mem {d : Char} (hd : ¬(97 ≤ d.toNat ∧ d.toNat ≤ 122))
    (s : List Char) (h : d ∉ s) : d ∉ toLowerL s := by
  intro hm
  rcases List.mem_map.mp hm with ⟨c, hc, he⟩
  exact h ((toLower_fix hd c he) ▸ hc)

theorem goodSeg_lower (s : List Char) (h : goodSeg s) : goodSeg (toLowerL s) := by
  obtain ⟨h1, h2, h3, h4, h5⟩ := h
  refine ⟨?_, ?_, ?_, ?_, ?_⟩
  · intro hm
    exact h1 (List.map_eq_nil.mp hm)
  · intro hm
    exact h2 (toLowerL_singleton_fix (by decide) s hm)
  · intro hm
    exact h3 (toLowerL_pair_fix (by decide) (by decide) s hm)
  · exact toLowerL_not_mem (by decide) s h4
  · exact toLowerL_not_mem (by decide) s h5

theorem mem_joinSegs :
    ∀ (segs : List (List Char)) (c : Char), c ∈ joinSegs segs →
      c = '/' ∨ ∃ s ∈ segs, c ∈ s := by
  intro segs
  induction segs with
  | nil => intro c hc; cases hc
  | cons s ss ih =>
    intro c hc
    cases ss with
    | nil =>
      rw [joinSegs] at hc
      exact Or.inr ⟨s, List.mem_cons_self s [], hc⟩
    | cons s2 ss2 =>
      rw [joinSegs_pair] at hc
      rcases List.mem_append.mp hc with h | h
      · exact Or.inr ⟨s, List.mem_cons_self s _, h⟩
      · rcases List.mem_cons.mp h with h2 | h2
        · exact Or.inl h2
        · rcases ih c h2 with h3 | ⟨t, ht, hct⟩
          · exact Or.inl h3
          · exact Or.inr ⟨t, List.mem_cons_of_mem s ht, hct⟩

theorem replaceBS_no_bs (s : List Char) : '\\' ∉ replaceBS s := by
  intro hm
  rcases List.mem_map.mp hm with ⟨c, _, he⟩
  by_cases hc : c = '\\'
  · rw [if_pos hc] at he
    cases he
  · rw [if_neg hc] at he
    exact hc he

theorem replaceBS_id_of (s : List Char) (h : '\\' ∉ s) : replaceBS s = s := by
  rw [replaceBS]
  have := List.map_congr_left (l := s) (f := fun c => if c = '\\' then '/' else c)
    (g := id) (fun c hc => if_neg (fun (he : c = '\\') => h (he ▸ hc)))
  rw [this, List.map_id]

/-- Decomposition of `normalizeName`: the result is a join of
well-formed, lowercase-stable segments. -/
theorem normalizeName_segs (n : List Char) :
    ∃ segs : List (List Char), (∀ s ∈ segs, goodSeg s) ∧
      normalizeName n = joinSegs segs ∧ segs.map toLowerL = segs := by
  refine ⟨(cleanStack true [] (splitSeg ('/' :: replaceBS n))).map toLowerL, ?_, ?_, ?_⟩
  · intro s hs
    rcases List.mem_map.mp hs with ⟨t, ht, he⟩
    refine he ▸ goodSeg_lower t ?_
    refine cleanStack_good _ [] (by intro u hu; cases hu) ?_ t ht
    intro u hu
    constructor
    · exact splitSeg_no_slash _ u hu
    · intro hmem
      rcases List.mem_cons.mp (mem_of_mem_splitSeg _ u hu '\\' hmem) with h | h
      · cases h
      · exact replaceBS_no_bs n h
  · rw [normalizeName, cleanPath, if_neg (List.cons_ne_nil '/' (replaceBS n)),
      if_pos (show ('/' :: replaceBS n).head? = some '/' from rfl)]
    rw [List.drop_one, List.tail_cons, toLowerL_joinSegs]
  · rw [List.map_map]
    exact List.map_congr_left (fun s _ => toLowerL_idem s)

/-- A join of well-formed lowercase-stable segments is a fixpoint of
`normalizeName`. -/
theorem normalizeName_fix (segs : List (List Char)) (hg : ∀ s ∈ segs, goodSeg s)
    (hl : segs.map toLowerL = segs) :
    normalizeName (joinSegs segs) = joinSegs segs := by
  have hbs : replaceBS (joinSegs segs) = joinSegs segs := by
    refine replaceBS_id_of _ ?_
    intro hm
    rcases mem_joinSegs segs '\\' hm with h | ⟨s, hs, hcs⟩
    · cases h
    · exact (hg s hs).2.2.2.2 hcs
  rw [normalizeName, hbs]
  cases segs with
  | nil => rfl
  | cons s ss =>
    have hjoin : splitSeg (joinSegs (s :: ss)) = s :: ss :=
      splitSeg_joinSegs (s :: ss) (List.cons_ne_nil s ss)
        (fun t ht => (hg t ht).2.2.2.1)
    rw [cleanPath, if_neg (List.cons_ne_nil '/' (joinSegs (s :: ss))),
      if_pos (show ('/' :: joinSegs (s :: ss)).head? = some '/' from rfl)]
    rw [splitSeg, if_pos rfl, hjoin]
    rw [cleanStack, if_pos (Or.inl rfl)]
    rw [cleanStack_fixed (s :: ss) [] hg]
    rw [List.drop_one, List.tail_cons]
    rw [show List.reverse ([] : List (List Char)) ++ s :: ss = s :: ss from rfl]
    rw [toLowerL_joinSegs]
    exact congrArg joinSegs hl

/-- C9: archive-entry name normalization is idempotent, and the three
spec examples normalize to `a/foo.bsp`. -/
theorem c9_normalizeName_idempotent :
    (∀ n : List Char, normalizeName (normalizeName n) = normalizeName n) ∧
    normalizeName ("A\\Foo.BSP".toList) = "a/foo.bsp".toList ∧
    normalizeName ("a/foo.bsp".toList) = "a/foo.bsp".toList ∧
    normalizeName ("/a/foo.bsp".toList) = "a/foo.bsp".toList := by
  refine ⟨?_, by decide, by decide, by decide⟩
  intro n
  obtain ⟨segs, hg, heq, hl⟩ := normalizeName_segs n
  rw [heq]
  exact normalizeName_fix segs hg hl

/-- C3 counterexample: on the spec's own example directory the sort
yields custom.pak, pak2.pak, pak0.pak — the reverse of the claimed
pak0.pak, pak2.pak, custom.pak.  The pairwise comparator values show
the claimed order is not sorted under the code's comparator, so no
correct sort can produce it. -/
theorem c3_scan_order_counterexample :
    sortPaks ["pak0.pak".toList, "pak2.pak".toList, "custom.pak".toList] =
      ["custom.pak".toList, "pak2.pak".toList, "pak0.pak".toList] ∧
    sortPaks ["pak0.pak".toList, "pak2.pak".toList, "custom.pak".toList] ≠
      ["pak0.pak".toList, "pak2.pak".toList, "custom.pak".toList] ∧
    pakLess ("custom.pak".toList) ("pak0.pak".toList) = true ∧
    pakLess ("pak0.pak".toList) ("custom.pak".toList) = false ∧
    pakLess ("custom.pak".toList) ("pak2.pak".toList) = true ∧
    pakLess ("pak2.pak".toList) ("pak0.pak".toList) = true := by
  exact ⟨by decide, by decide, by decide, by decide, by decide, by decide⟩

/-- C3 amended: earlier = tried first; a name whose lowercase form does
NOT start with "pak" precedes one that does; between two "pak"-prefixed
names whose first digit runs both parse within the platform `int`
range, the one with the LARGER value comes first; between two
"pak"-prefixed names where either digit run is absent or overflows the
`int` range (`strconv.Atoi` error), and between two non-"pak" names,
the lexicographically LARGER comes first; the example directory yields
custom.pak, pak2.pak, pak0.pak. -/
theorem c3_scan_order_amended :
    (∀ u v : List Char,
      (pakPre (toLowerL u) = false → pakPre (toLowerL v) = true →
        pakLess u v = true) ∧
      (pakPre (toLowerL u) = true → pakPre (toLowerL v) = false →
        pakLess u v = false) ∧
      (∀ m n, atoiGo (toLowerL u) = some m → atoiGo (toLowerL v) = some n →
        pakPre (toLowerL u) = true → pakPre (toLowerL v) = true →
        pakLess u v = decide (n < m)) ∧
      (pakPre (toLowerL u) = true → pakPre (toLowerL v) = true →
        (atoiGo (toLowerL u) = none ∨ atoiGo (toLowerL v) = none) →
        pakLess u v = lexLt (toLowerL v) (toLowerL u)) ∧
      (pakPre (toLowerL u) = false → pakPre (toLowerL v) = false →
        pakLess u v = lexLt (toLowerL v) (toLowerL u))) ∧
    sortPaks ["pak0.pak".toList, "pak2.pak".toList, "custom.pak".toList] =
      ["custom.pak".toList, "pak2.pak".toList, "pak0.pak".toList] := by
  constructor
  · intro u v
    refine ⟨?_, ?_, ?_, ?_, ?_⟩
    · intro h1 h2
      simp [pakLess, cmpNames, h1, h2]
    · intro h1 h2
      simp [pakLess, cmpNames, h1, h2]
    · intro m n hm hn h1 h2
      simp [pakLess, cmpNames, h1, h2, hm, hn]
    · intro h1 h2 hone
      rcases hone with h | h
      · cases ho : atoiGo (toLowerL v) with
        | none => simp [pakLess, cmpNames, h1, h2, ho]
        | some w => simp [pakLess, cmpNames, h1, h2, ho, h]
      · simp [pakLess, cmpNames, h1, h2, h]
    · intro h1 h2
      simp [pakLess, cmpNames, h1, h2]
  · decide

/-- Witness for C3's amended ordering at concrete names, including a
digit run that overflows `int64` and takes the `strconv.Atoi` error
fallback. -/
theorem c3_scan_order_amended_witness :
    pakPre (toLowerL ("custom.pak".toList)) = false ∧
    pakPre (toLowerL ("pak0.pak".toList)) = true ∧
    pakLess ("custom.pak".toList) ("pak0.pak".toList) = true ∧
    pakPre (toLowerL ("pak9.pak".toList)) = true ∧
    pakPre (toLowerL ("pak10000000000000000000.pak".toList)) = true ∧
    (atoiGo (toLowerL ("pak9.pak".toList)) = none ∨
      atoiGo (toLowerL ("pak10000000000000000000.pak".toList)) = none) ∧
    pakLess ("pak9.pak".toList) ("pak10000000000000000000.pak".toList) = true :=
  ⟨by decide, by decide,
    (c3_scan_order_amended.1 ("custom.pak".toList) ("pak0.pak".toList)).1
      (by decide) (by decide),
    by decide, by decide, by decide,
    by
      rw [(c3_scan_order_amended.1 ("pak9.pak".toList)
        ("pak10000000000000000000.pak".toList)).2.2.2.1
        (by decide) (by decide) (by decide)]
      decide⟩

/-! ## C4 resolver lemmas -/

theorem findLoop_spec (s : List Char) :
    ∀ (routes : List CompiledSearchPath) (bo : Option (List SearchPath)) (e : Nat),
      (findLoop s (bo, e) routes = (bo, e) ∧
        ∀ r ∈ routes, ∀ en, r.matchFn s = some (0, en) → en ≤ e) ∨
      (∃ pre r post, routes = pre ++ r :: post ∧
        r.matchFn s = some (0, (findLoop s (bo, e) routes).2) ∧
        (findLoop s (bo, e) routes).1 = some r.search ∧
        (findLoop s (bo, e) routes).2 > e ∧
        (∀ r' ∈ pre, ∀ en, r'.matchFn s = some (0, en) →
          en < (findLoop s (bo, e) routes).2) ∧
        (∀ r' ∈ post, ∀ en, r'.matchFn s = some (0, en) →
          en ≤ (findLoop s (bo, e) routes).2)) := by
  intro routes
  induction routes with
  | nil =>
    intro bo e
    left
    exact ⟨rfl, fun r hr => absurd hr (List.not_mem_nil r)⟩
  | cons r0 rest ih =>
    intro bo e
    rcases hm : r0.matchFn s with _ | ⟨st, en⟩
    · have hstep : findLoop s (bo, e) (r0 :: rest) = findLoop s (bo, e) rest := by
        rw [findLoop, hm]
      rcases ih bo e with ⟨h1, h2⟩ | ⟨pre, r, post, hsplit, h1, h2, h3, h4, h5⟩
      · left
        rw [hstep]
        refine ⟨h1, ?_⟩
        intro r hr en hen
        rcases List.mem_cons.mp hr with h | h
        · rw [h, hm] at hen
          cases hen
        · exact h2 r h en hen
      · right
        refine ⟨r0 :: pre, r, post, by rw [hsplit, List.cons_append], ?_, ?_, ?_, ?_, ?_⟩
        · rw [hstep]; exact h1
        · rw [hstep]; exact h2
        · rw [hstep]; exact h3
        · intro r' hr' en hen
          rcases List.mem_cons.mp hr' with h | h
          · rw [h, hm] at hen
            cases hen
          · rw [hstep]; exact h4 r' h en hen
        · intro r' hr' en hen
          rw [hstep]; exact h5 r' hr' en hen
    · by_cases hc : st = 0 ∧ en > e
      · have hstep : findLoop s (bo, e) (r0 :: rest) =
            findLoop s (some r0.search, en) rest := by
          simp only [findLoop, hm]
          rw [if_pos (show st = 0 ∧ en > (bo, e).2 from hc)]
        rcases ih (some r0.search) en with ⟨h1, h2⟩ | ⟨pre, r, post, hsplit, h1, h2, h3, h4, h5⟩
        · right
          refine ⟨[], r0, rest, rfl, ?_, ?_, ?_, ?_, ?_⟩
          · rw [hstep, h1]
            rw [hc.1] at hm
            exact hm
          · rw [hstep, h1]
          · rw [hstep, h1]
            exact hc.2
          · intro r' hr'
            cases hr'
          · intro r' hr' en' hen'
            rw [hstep, h1]
            exact h2 r' hr' en' hen'
        · right
          refine ⟨r0 :: pre, r, post, by rw [hsplit, List.cons_append], ?_, ?_, ?_, ?_, ?_⟩
          · rw [hstep]; exact h1
          · rw [hstep]; exact h2
          · rw [hstep]
            have := h3
            omega
          · intro r' hr' en' hen'
            rcases List.mem_cons.mp hr' with h | h
            · rw [h, hm] at hen'
              have hp := Option.some.inj hen'
              have h0 : st = 0 ∧ en = en' :=
                ⟨congrArg Prod.fst hp, congrArg Prod.snd hp⟩
              rw [hstep]
              omega
            · rw [hstep]; exact h4 r' h en' hen'
          · intro r' hr' en' hen'
            rw [hstep]; exact h5 r' hr' en' hen'
      · have hstep : findLoop s (bo, e) (r0 :: rest) = findLoop s (bo, e) rest := by
          simp only [findLoop, hm]
          rw [if_neg (show ¬(st = 0 ∧ en > (bo, e).2) from hc)]
        rcases ih bo e with ⟨h1, h2⟩ | ⟨pre, r, post, hsplit, h1, h2, h3, h4, h5⟩
        · left
          rw [hstep]
          refine ⟨h1, ?_⟩
          intro r hr en' hen'
          rcases List.mem_cons.mp hr with h | h
          · rw [h, hm] at hen'
            have hp := Option.some.inj hen'
            have h0 : st = 0 ∧ en = en' :=
              ⟨congrArg Prod.fst hp, congrArg Prod.snd hp⟩
            omega
          · exact h2 r h en' hen'
        · right
          refine ⟨r0 :: pre, r, post, by rw [hsplit, List.cons_append], ?_, ?_, ?_, ?_, ?_⟩
          · rw [hstep]; exact h1
          · rw [hstep]; exact h2
          · rw [hstep]; exact h3
          · intro r' hr' en' hen'
            rcases List.mem_cons.mp hr' with h | h
            · rw [h, hm] at hen'
              have hp := Option.some.inj hen'
              have h0 : st = 0 ∧ en = en' :=
                ⟨congrArg Prod.fst hp, congrArg Prod.snd hp⟩
              rw [hstep]
              have h3r := h3
              omega
            · rw [hstep]; exact h4 r' h en' hen'
          · intro r' hr' en' hen'
            rw [hstep]; exact h5 r' hr' en' hen'

/-- C2: for a deflate-method entry on a non-HEAD request, if the client
accepts gzip the body is exactly the 10-byte gzip header (1F 8B, method
8, flags 0, the entry's mtime, extra flags 0, OS byte 3) ++ the stored
raw deflate bytes ++ the 8-byte CRC-32/uncompressed-size trailer, with
Content-Length = stored size + 18 and Content-Encoding gzip; if the
client accepts deflate but not gzip, the body is the stored bytes with
Content-Encoding deflate and Content-Length = stored size; if neither,
the body is the inflated bytes with Content-Length = the uncompressed
size and no Content-Encoding — preference order gzip, deflate, inflate. -/
theorem c2_deflate_negotiation (env : SrvEnv) (e : PakFileEntry) (ab : List Nat)
    (vals : List (List Char)) (hm : e.method ≠ 0) :
    ((parseAcceptEncoding vals).1 = true →
      servePakEntry env e (parseAcceptEncoding vals).1 (parseAcceptEncoding vals).2
          false ab =
        ⟨200, some env.contentType, some (e.size + 18), some "gzip".toList, false,
          [31, 139, 8, 0] ++ le32 e.mtime ++ [0, 3] ++ extract ab e.offset e.size ++
            le32 e.filecrc ++ le32 e.filelen⟩) ∧
    ((parseAcceptEncoding vals).1 = false → (parseAcceptEncoding vals).2 = true →
      servePakEntry env e (parseAcceptEncoding vals).1 (parseAcceptEncoding vals).2
          false ab =
        ⟨200, some env.contentType, some e.size, some "deflate".toList, false,
          extract ab e.offset e.size⟩) ∧
    ((parseAcceptEncoding vals).1 = false → (parseAcceptEncoding vals).2 = false →
      servePakEntry env e (parseAcceptEncoding vals).1 (parseAcceptEncoding vals).2
          false ab =
        ⟨200, some env.contentType, some e.filelen, none, false,
          env.inflateFn (extract ab e.offset e.size)⟩) := by
  refine ⟨?_, ?_, ?_⟩
  · intro h1
    rw [servePakEntry]
    rw [if_neg (by decide : ¬ (false = true)), if_pos hm, if_pos h1]
    rw [handleGzip, gzipWrap]
  · intro h1 h2
    rw [servePakEntry]
    rw [if_neg (by decide : ¬ (false = true)), if_pos hm, if_neg (by rw [h1]; decide),
      if_pos h2]
    rw [handleRaw, if_pos hm]
  · intro h1 h2
    rw [servePakEntry]
    rw [if_neg (by decide : ¬ (false = true)), if_pos hm, if_neg (by rw [h1]; decide),
      if_neg (by rw [h2]; decide)]
    rw [handleInflate]

/-- Witness for C2 at a concrete entry and Accept-Encoding list. -/
theorem c2_deflate_negotiation_witness :
    (parseAcceptEncoding [" GZip , deflate".toList]).1 = true ∧
    servePakEntry envEx entryEx (parseAcceptEncoding [" GZip , deflate".toList]).1
        (parseAcceptEncoding [" GZip , deflate".toList]).2 false
        (List.replicate 20 7 ++ [1, 2, 3, 4]) =
      ⟨200, some envEx.contentType, some (entryEx.size + 18), some "gzip".toList, false,
        [31, 139, 8, 0] ++ le32 entryEx.mtime ++ [0, 3] ++
          extract (List.replicate 20 7 ++ [1, 2, 3, 4]) entryEx.offset entryEx.size ++
          le32 entryEx.filecrc ++ le32 entryEx.filelen⟩ :=
  ⟨by decide,
    (c2_deflate_negotiation envEx entryEx (List.replicate 20 7 ++ [1, 2, 3, 4])
      [" GZip , deflate".toList] (by decide)).1 (by decide)⟩

/-! ## Loop lemmas for the handler -/

theorem servePakEntry_fields (env : SrvEnv) (e : PakFileEntry)
    (g d h : Bool) (ab : List Nat) :
    (servePakEntry env e g d h ab).status = 200 ∧
    (servePakEntry env e g d h ab).contentType = some env.contentType ∧
    ∃ n, (servePakEntry env e g d h ab).contentLength = some n := by
  rw [servePakEntry]
  by_cases hm : e.method ≠ 0
  · rw [if_pos hm]
    by_cases hg : g = true
    · rw [if_pos hg]
      exact ⟨rfl, rfl, e.size + 18, rfl⟩
    · rw [if_neg hg]
      by_cases hd : d = true
      · rw [if_pos hd]
        exact ⟨rfl, rfl, e.size, rfl⟩
      · rw [if_neg hd]
        exact ⟨rfl, rfl, e.filelen, rfl⟩
  · rw [if_neg hm]
    exact ⟨rfl, rfl, e.size, rfl⟩

theorem serveLoop_none_iff (env : SrvEnv) (asset : List Char)
    (aP aD g d h : Bool) :
    ∀ stores : List SearchPath,
      (serveLoop env asset aP aD g d h stores = none ↔
        anyHit env asset aP aD stores = false) := by
  intro stores
  induction stores with
  | nil => simp [serveLoop, anyHit]
  | cons s rest ih =>
    rw [serveLoop, anyHit]
    cases hsf : s.files with
    | none =>
      cases aD with
      | false => simp [ih]
      | true =>
        cases hdf : env.dirFile s.path asset with
        | none => simp [hdf, ih]
        | some bytes => simp [hdf]
    | some fl =>
      cases aP with
      | false => simp [ih]
      | true =>
        cases hlk : fl.lookup asset with
        | none => simp [hlk, ih]
        | some e =>
          cases hab : env.archBytes s.path with
          | none => simp [hlk, hab, ih]
          | some ab => simp [hlk, hab]

theorem serveLoop_some_fields (env : SrvEnv) (asset : List Char)
    (aP aD g d h : Bool) :
    ∀ (stores : List SearchPath) (r : HttpResp),
      serveLoop env asset aP aD g d h stores = some r →
      r.status = 200 ∧ r.contentType = some env.contentType ∧
      ∃ n, r.contentLength = some n := by
  intro stores
  induction stores with
  | nil =>
    intro r hr
    simp [serveLoop] at hr
  | cons s rest ih =>
    intro r hr
    rw [serveLoop] at hr
    cases hsf : s.files with
    | none =>
      simp only [hsf] at hr
      cases aD with
      | false => exact ih r hr
      | true =>
        cases hdf : env.dirFile s.path asset with
        | none =>
          simp only [hdf, if_true] at hr
          exact ih r hr
        | some bytes =>
          simp only [hdf, if_true] at hr
          have hr2 : dirResp env.contentType h bytes = r := Option.some.inj hr
          subst hr2
          exact ⟨rfl, rfl, bytes.length, rfl⟩
    | some fl =>
      simp only [hsf] at hr
      cases aP with
      | false => exact ih r hr
      | true =>
        cases hlk : fl.lookup asset with
        | none =>
          simp only [hlk, if_true] at hr
          exact ih r hr
        | some e =>
          simp only [hlk, if_true] at hr
          cases hab : env.archBytes s.path with
          | none =>
            simp only [hab] at hr
            exact ih r hr
          | some ab =>
            simp only [hab] at hr
            have hr2 : servePakEntry env e g d h ab = r := Option.some.inj hr
            subst hr2
            exact servePakEntry_fields env e g d h ab

theorem anyHit_gates_false (env : SrvEnv) (asset : List Char) :
    ∀ stores : List SearchPath, anyHit env asset false false stores = false := by
  intro stores
  induction stores with
  | nil => rfl
  | cons s rest ih =>
    rw [anyHit]
    cases hsf : s.files with
    | none => simp [ih]
    | some fl => simp [ih]

/-- Full status characterization of the handler (shared helper). -/
theorem handler_status_spec (env : SrvEnv) (req : HttpRequest) :
    ((handler env req).status = 403 ↔
      ((env.osSep != '/' && req.urlPath.contains env.osSep) = true ∨
        env.refererOk req.referer = false)) ∧
    ((handler env req).status = 404 ↔
      ((env.osSep != '/' && req.urlPath.contains env.osSep) = false ∧
        env.refererOk req.referer = true ∧
        ((findSearchPath env.routes req.urlPath).1 = none ∨
         (findSearchPath env.routes req.urlPath).2 = [] ∨
         (env.pakBlackMatches (findSearchPath env.routes req.urlPath).2 = true ∧
          env.dirWhiteMatches (findSearchPath env.routes req.urlPath).2 = false) ∨
         hitOf env req = false))) ∧
    ((handler env req).status = 200 ↔
      ((env.osSep != '/' && req.urlPath.contains env.osSep) = false ∧
        env.refererOk req.referer = true ∧
        (findSearchPath env.routes req.urlPath).1 ≠ none ∧
        (findSearchPath env.routes req.urlPath).2 ≠ [] ∧
        hitOf env req = true)) ∧
    ((handler env req).status = 200 →
      (handler env req).contentType = some env.contentType ∧
      ∃ n, (handler env req).contentLength = some n) := by
  by_cases hT : (env.osSep != '/' && req.urlPath.contains env.osSep) = true
  · have hh : handler env req = forbiddenResp req.proto11 := by
      rw [handler, if_pos hT]
    rw [hh]
    refine ⟨⟨fun _ => Or.inl hT, fun _ => rfl⟩, ?_, ?_, ?_⟩
    · refine ⟨fun h => by simp [forbiddenResp] at h, ?_⟩
      rintro ⟨hf, _⟩
      rw [hT] at hf
      cases hf
    · refine ⟨fun h => by simp [forbiddenResp] at h, ?_⟩
      rintro ⟨hf, _⟩
      rw [hT] at hf
      cases hf
    · intro h
      simp [forbiddenResp] at h
  · have hT2 : (env.osSep != '/' && req.urlPath.contains env.osSep) = false := by
      revert hT
      cases env.osSep != '/' && req.urlPath.contains env.osSep
      · intro _
        rfl
      · intro h
        exact absurd rfl h
    by_cases hR : env.refererOk req.referer = false
    · have hh : handler env req = forbiddenResp req.proto11 := by
        rw [handler, if_neg hT, if_pos (by rw [hR]; rfl)]
      rw [hh]
      refine ⟨⟨fun _ => Or.inr hR, fun _ => rfl⟩, ?_, ?_, ?_⟩
      · refine ⟨fun h => by simp [forbiddenResp] at h, ?_⟩
        rintro ⟨_, hf, _⟩
        rw [hR] at hf
        cases hf
      · refine ⟨fun h => by simp [forbiddenResp] at h, ?_⟩
        rintro ⟨_, hf, _⟩
        rw [hR] at hf
        cases hf
      · intro h
        simp [forbiddenResp] at h
    · have hRt : env.refererOk req.referer = true := by
        revert hR
        cases env.refererOk req.referer
        · intro h
          exact absurd rfl h
        · intro _
          rfl
      have hnr : ¬((!(env.refererOk req.referer)) = true) := by
        rw [hRt]
        decide
      have hno403 : ¬(((env.osSep != '/' && req.urlPath.contains env.osSep) = true ∨
          env.refererOk req.referer = false)) := by
        rintro (h | h)
        · rw [hT2] at h
          cases h
        · rw [hRt] at h
          cases h
      rcases hfs : (findSearchPath env.routes req.urlPath).1 with _ | stores
      · have hh : handler env req = notFoundResp := by
          rw [handler, if_neg hT, if_neg hnr]
          simp only [hfs]
        rw [hh]
        refine ⟨⟨fun h => absurd h (by decide), fun h => absurd h hno403⟩,
          ⟨fun _ => ⟨hT2, hRt, Or.inl rfl⟩, fun _ => rfl⟩, ?_, ?_⟩
        · refine ⟨fun h => absurd h (by decide), ?_⟩
          rintro ⟨_, _, hne, _⟩
          exact absurd rfl hne
        · intro h
          exact absurd h (by decide)
      · by_cases hA : (findSearchPath env.routes req.urlPath).2 = []
        · have hh : handler env req = notFoundResp := by
            rw [handler, if_neg hT, if_neg hnr]
            simp only [hfs]
            rw [if_pos hA]
          rw [hh]
          refine ⟨⟨fun h => absurd h (by decide), fun h => absurd h hno403⟩,
            ⟨fun _ => ⟨hT2, hRt, Or.inr (Or.inl hA)⟩, fun _ => rfl⟩, ?_, ?_⟩
          · refine ⟨fun h => absurd h (by decide), ?_⟩
            rintro ⟨_, _, _, hne, _⟩
            exact absurd hA hne
          · intro h
            exact absurd h (by decide)
        · by_cases hG :
              (!(env.pakBlackMatches (findSearchPath env.routes req.urlPath).2)) = false ∧
              env.dirWhiteMatches (findSearchPath env.routes req.urlPath).2 = false
          · have hh : handler env req = notFoundResp := by
              rw [handler, if_neg hT, if_neg hnr]
              simp only [hfs]
              rw [if_neg hA, if_pos hG]
            have hblack :
                env.pakBlackMatches (findSearchPath env.routes req.urlPath).2 = true := by
              have hx := hG.1
              revert hx
              cases env.pakBlackMatches (findSearchPath env.routes req.urlPath).2
              · intro h
                cases h
              · intro _
                rfl
            have hhit : hitOf env req = false := by
              rw [hitOf]
              simp only [hfs]
              rw [hG.1, hG.2]
              exact anyHit_gates_false env _ stores
            rw [hh]
            refine ⟨⟨fun h => absurd h (by decide), fun h => absurd h hno403⟩,
              ⟨fun _ => ⟨hT2, hRt, Or.inr (Or.inr (Or.inl ⟨hblack, hG.2⟩))⟩,
                fun _ => rfl⟩, ?_, ?_⟩
            · refine ⟨fun h => absurd h (by decide), ?_⟩
              rintro ⟨_, _, _, _, hht⟩
              rw [hhit] at hht
              cases hht
            · intro h
              exact absurd h (by decide)
          · rcases hsl : serveLoop env (findSearchPath env.routes req.urlPath).2
                (!(env.pakBlackMatches (findSearchPath env.routes req.urlPath).2))
                (env.dirWhiteMatches (findSearchPath env.routes req.urlPath).2)
                (parseAcceptEncoding req.acceptEnc).1
                (parseAcceptEncoding req.acceptEnc).2
                (decide (req.method = "HEAD".toList)) stores with _ | r
            · have hh : handler env req = notFoundResp := by
                rw [handler, if_neg hT, if_neg hnr]
                simp only [hfs]
                rw [if_neg hA, if_neg hG]
                simp only [hsl]
              have hhit : hitOf env req = false := by
                rw [hitOf]
                simp only [hfs]
                exact (serveLoop_none_iff env _ _ _ _ _ _ stores).mp hsl
              rw [hh]
              refine ⟨⟨fun h => absurd h (by decide), fun h => absurd h hno403⟩,
                ⟨fun _ => ⟨hT2, hRt, Or.inr (Or.inr (Or.inr hhit))⟩, fun _ => rfl⟩,
                ?_, ?_⟩
              · refine ⟨fun h => absurd h (by decide), ?_⟩
                rintro ⟨_, _, _, _, hht⟩
                rw [hhit] at hht
                cases hht
              · intro h
                exact absurd h (by decide)
            · have hh : handler env req = r := by
                rw [handler, if_neg hT, if_neg hnr]
                simp only [hfs]
                rw [if_neg hA, if_neg hG]
                simp only [hsl]
              have hfields := serveLoop_some_fields env
                (findSearchPath env.routes req.urlPath).2
                (!(env.pakBlackMatches (findSearchPath env.routes req.urlPath).2))
                (env.dirWhiteMatches (findSearchPath env.routes req.urlPath).2)
                (parseAcceptEncoding req.acceptEnc).1
                (parseAcceptEncoding req.acceptEnc).2
                (decide (req.method = "HEAD".toList)) stores r hsl
              have hhit : hitOf env req = true := by
                rw [hitOf]
                simp only [hfs]
                cases hAH : anyHit env (findSearchPath env.routes req.urlPath).2
                    (!(env.pakBlackMatches (findSearchPath env.routes req.urlPath).2))
                    (env.dirWhiteMatches (findSearchPath env.routes req.urlPath).2)
                    stores
                · have := (serveLoop_none_iff env _ _ _
                      (parseAcceptEncoding req.acceptEnc).1
                      (parseAcceptEncoding req.acceptEnc).2
                      (decide (req.method = "HEAD".toList)) stores).mpr hAH
                  rw [hsl] at this
                  cases this
                · rfl
              rw [hh]
              rw [hfields.1]
              refine ⟨⟨fun h => absurd h (by decide), fun h => absurd h hno403⟩, ?_, ?_, ?_⟩
              · refine ⟨fun h => absurd h (by decide), ?_⟩
                rintro ⟨_, _, (h | h | h | h)⟩
                · exact Option.noConfusion h
                · exact absurd h hA
                · refine absurd ⟨?_, h.2⟩ hG
                  rw [h.1]
                  rfl
                · rw [hhit] at h
                  cases h
              · refine ⟨fun _ => ⟨hT2, hRt, ?_, hA, hhit⟩, fun _ => rfl⟩
                exact fun hc => Option.noConfusion hc
              · intro _
                exact ⟨hfields.2.1, hfields.2.2⟩

/-- C8: the handler returns 403 exactly for separator tampering (a
non-slash native separator occurring in the raw path) or referer-check
failure; 404 exactly for no route, empty asset path, rejection by both
gates, or no backing store yielding the asset; and otherwise 200 with
the configured content type and a content length. -/
theorem c8_status_outcomes (env : SrvEnv) (req : HttpRequest) :
    ((handler env req).status = 403 ↔
      ((env.osSep != '/' && req.urlPath.contains env.osSep) = true ∨
        env.refererOk req.referer = false)) ∧
    ((handler env req).status = 404 ↔
      ((env.osSep != '/' && req.urlPath.contains env.osSep) = false ∧
        env.refererOk req.referer = true ∧
        ((findSearchPath env.routes req.urlPath).1 = none ∨
         (findSearchPath env.routes req.urlPath).2 = [] ∨
         (env.pakBlackMatches (findSearchPath env.routes req.urlPath).2 = true ∧
          env.dirWhiteMatches (findSearchPath env.routes req.urlPath).2 = false) ∨
         hitOf env req = false))) ∧
    ((handler env req).status = 200 ↔
      ((env.osSep != '/' && req.urlPath.contains env.osSep) = false ∧
        env.refererOk req.referer = true ∧
        (findSearchPath env.routes req.urlPath).1 ≠ none ∧
        (findSearchPath env.routes req.urlPath).2 ≠ [] ∧
        hitOf env req = true)) ∧
    ((handler env req).status = 200 →
      (handler env req).contentType = some env.contentType ∧
      ∃ n, (handler env req).contentLength = some n) :=
  handler_status_spec env req

/-- Witness for C8: with no routes configured, a plain request is 404. -/
theorem c8_status_outcomes_witness : (handler envEx reqEx).status = 404 :=
  (c8_status_outcomes envEx reqEx).2.1.mpr ⟨by decide, by decide, Or.inl (by decide)⟩

/-- Every handler outcome is the forbidden response, the bare
not-found response, or a 200 response. -/
theorem handler_shape (env : SrvEnv) (req : HttpRequest) :
    handler env req = forbiddenResp req.proto11 ∨
    handler env req = notFoundResp ∨
    (handler env req).status = 200 := by
  rw [handler]
  by_cases hT : (env.osSep != '/' && req.urlPath.contains env.osSep) = true
  · rw [if_pos hT]
    exact Or.inl rfl
  · rw [if_neg hT]
    by_cases hRf : (!(env.refererOk req.referer)) = true
    · rw [if_pos hRf]
      exact Or.inl rfl
    · rw [if_neg hRf]
      rcases hfs : (findSearchPath env.routes req.urlPath).1 with _ | stores
      · simp only [hfs]
        exact Or.inr (Or.inl trivial)
      · simp only [hfs]
        by_cases hA : (findSearchPath env.routes req.urlPath).2 = []
        · rw [if_pos hA]
          exact Or.inr (Or.inl rfl)
        · rw [if_neg hA]
          by_cases hG :
              (!(env.pakBlackMatches (findSearchPath env.routes req.urlPath).2)) = false ∧
              env.dirWhiteMatches (findSearchPath env.routes req.urlPath).2 = false
          · rw [if_pos hG]
            exact Or.inr (Or.inl rfl)
          · rw [if_neg hG]
            rcases hsl : serveLoop env (findSearchPath env.routes req.urlPath).2
                (!(env.pakBlackMatches (findSearchPath env.routes req.urlPath).2))
                (env.dirWhiteMatches (findSearchPath env.routes req.urlPath).2)
                (parseAcceptEncoding req.acceptEnc).1
                (parseAcceptEncoding req.acceptEnc).2
                (decide (req.method = "HEAD".toList)) stores with _ | r
            · simp only [hsl]
              exact Or.inr (Or.inl trivial)
            · simp only [hsl]
              exact Or.inr (Or.inr (serveLoop_some_fields env _ _ _ _ _ _ stores r hsl).1)

/-- A 404 status forces the exact bare not-found response. -/
theorem handler_404_eq_notFound (env : SrvEnv) (req : HttpRequest)
    (h : (handler env req).status = 404) : handler env req = notFoundResp := by
  rcases handler_shape env req with hs | hs | hs
  · rw [hs] at h
    simp [forbiddenResp] at h
  · exact hs
  · rw [h] at hs
    exact absurd hs (by decide)

/-- C6: a request whose asset path is rejected by both access gates
gets exactly the same response — the bare not-found response, with
identical status and headers — as a request whose asset path is in no
backing store. -/
theorem c6_gate_denial_indistinguishable (env : SrvEnv) (req req2 : HttpRequest)
    (h1 : (env.osSep != '/' && req.urlPath.contains env.osSep) = false)
    (h2 : env.refererOk req.referer = true)
    (h3 : env.pakBlackMatches (findSearchPath env.routes req.urlPath).2 = true)
    (h4 : env.dirWhiteMatches (findSearchPath env.routes req.urlPath).2 = false)
    (h5 : (env.osSep != '/' && req2.urlPath.contains env.osSep) = false)
    (h6 : env.refererOk req2.referer = true)
    (h7 : hitOf env req2 = false) :
    handler env req = notFoundResp ∧ handler env req2 = notFoundResp ∧
    handler env req = handler env req2 := by
  have s1 : (handler env req).status = 404 :=
    (handler_status_spec env req).2.1.mpr
      ⟨h1, h2, Or.inr (Or.inr (Or.inl ⟨h3, h4⟩))⟩
  have s2 : (handler env req2).status = 404 :=
    (handler_status_spec env req2).2.1.mpr
      ⟨h5, h6, Or.inr (Or.inr (Or.inr h7))⟩
  have e1 := handler_404_eq_notFound env req s1
  have e2 := handler_404_eq_notFound env req2 s2
  exact ⟨e1, e2, by rw [e1, e2]⟩

/-- Witness for C6 at concrete requests. -/
theorem c6_gate_denial_indistinguishable_witness :
    handler envC6 reqC6a = notFoundResp ∧ handler envC6 reqC6b = notFoundResp ∧
    handler envC6 reqC6a = handler envC6 reqC6b :=
  c6_gate_denial_indistinguishable envC6 reqC6a reqC6b (by decide) (by decide)
    (by decide) (by decide) (by decide) (by decide) (by decide)

/-- C4: the resolver matches routes against the cleaned lowercased
path, keeps only matches starting at offset 0, selects the strictly
largest match end (first-registered route wins ties: every earlier
route's 0-anchored match is strictly shorter, every later one is no
longer), and strips the matched prefix; with `^/a/` and `^/a/b/`
registered, `/a/b/c` resolves via `^/a/b/` leaving asset path `c`; no
matching route or an empty remainder is a terminal not-found. -/
theorem c4_longest_prefix_resolution :
    (∀ (routes : List CompiledSearchPath) (p : List Char),
      ((findSearchPath routes p).1 = none →
        (findSearchPath routes p).2 = toLowerL (cleanPath p) ∧
        ∀ r ∈ routes, ∀ en, r.matchFn (toLowerL (cleanPath p)) = some (0, en) → en = 0) ∧
      (∀ sr, (findSearchPath routes p).1 = some sr →
        ∃ pre r post, routes = pre ++ r :: post ∧
          ∃ e, e > 0 ∧ r.matchFn (toLowerL (cleanPath p)) = some (0, e) ∧
            sr = r.search ∧
            (findSearchPath routes p).2 = (toLowerL (cleanPath p)).drop e ∧
            (∀ r2 ∈ pre, ∀ en, r2.matchFn (toLowerL (cleanPath p)) = some (0, en) → en < e) ∧
            (∀ r2 ∈ post, ∀ en, r2.matchFn (toLowerL (cleanPath p)) = some (0, en) → en ≤ e))) ∧
    findSearchPath [routeA, routeB] ("/a/b/c".toList) =
      (some [⟨"rootb".toList, none⟩], "c".toList) ∧
    (∀ (env : SrvEnv) (req : HttpRequest),
      ((findSearchPath env.routes req.urlPath).1 = none ∨
        (findSearchPath env.routes req.urlPath).2 = []) →
      (env.osSep != '/' && req.urlPath.contains env.osSep) = false →
      env.refererOk req.referer = true →
      handler env req = notFoundResp) := by
  refine ⟨?_, by decide, ?_⟩
  · intro routes p
    constructor
    · intro hnone
      rcases findLoop_spec (toLowerL (cleanPath p)) routes none 0 with
        ⟨hA1, hA2⟩ | ⟨pre, r, post, hsplit, h1, h2, h3, h4, h5⟩
      · constructor
        · show (toLowerL (cleanPath p)).drop
            (findLoop (toLowerL (cleanPath p)) (none, 0) routes).2 = _
          rw [hA1]
          exact List.drop_zero _
        · intro r hr en hen
          exact Nat.le_antisymm (hA2 r hr en hen) (Nat.zero_le en)
      · exact absurd (show (findSearchPath routes p).1 = some r.search from h2) (by
          rw [hnone]
          exact fun hc => Option.noConfusion hc)
    · intro sr hsome
      rcases findLoop_spec (toLowerL (cleanPath p)) routes none 0 with
        ⟨hA1, hA2⟩ | ⟨pre, r, post, hsplit, h1, h2, h3, h4, h5⟩
      · exfalso
        have : (findSearchPath routes p).1 = none := by
          show (findLoop (toLowerL (cleanPath p)) (none, 0) routes).1 = none
          rw [hA1]
        rw [hsome] at this
        exact Option.noConfusion this
      · refine ⟨pre, r, post, hsplit,
          (findLoop (toLowerL (cleanPath p)) (none, 0) routes).2, h3, h1, ?_, rfl, h4, h5⟩
        have hx : (findSearchPath routes p).1 = some r.search := h2
        rw [hsome] at hx
        exact Option.some.inj hx
  · intro env req hcase hT hRt
    have hnr : ¬((!(env.refererOk req.referer)) = true) := by
      rw [hRt]
      decide
    have hT2 : ¬((env.osSep != '/' && req.urlPath.contains env.osSep) = true) := by
      rw [hT]
      decide
    rcases hcase with hc | hc
    · rw [handler, if_neg hT2, if_neg hnr]
      simp only [hc]
    · rcases hfs : (findSearchPath env.routes req.urlPath).1 with _ | stores
      · rw [handler, if_neg hT2, if_neg hnr]
        simp only [hfs]
      · rw [handler, if_neg hT2, if_neg hnr]
        simp only [hfs]
        rw [if_pos hc]

/-- Witness for C4 at the concrete no-routes instance. -/
theorem c4_longest_prefix_resolution_witness :
    (findSearchPath ([] : List CompiledSearchPath) ("/x".toList)).2 =
      toLowerL (cleanPath ("/x".toList)) :=
  ((c4_longest_prefix_resolution.1 [] ("/x".toList)).1 (by decide)).1

/-- C10 counterexample: with the route `^/x` registered, the request
path `/x../e` resolves to the asset path `../e`, which does contain a
".." segment — the claim fails for route patterns that can end inside
a segment. -/
theorem c10_no_traversal_counterexample :
    (findSearchPath [routeX] ("/x../e".toList)).2 = "../e".toList ∧
    hasDotDotSeg (findSearchPath [routeX] ("/x../e".toList)).2 = true := by
  exact ⟨by decide, by decide⟩

theorem cleanStack_ok :
    ∀ (segs stack : List (List Char)), (∀ s ∈ stack, okSeg s) →
      (∀ s ∈ segs, '/' ∉ s) →
      ∀ s ∈ cleanStack true stack segs, okSeg s := by
  intro segs
  induction segs with
  | nil =>
    intro stack hst _ s hs
    rw [cleanStack] at hs
    exact hst s (List.mem_reverse.mp hs)
  | cons seg rest ih =>
    intro stack hst hin s hs
    rw [cleanStack] at hs
    by_cases h1 : seg = [] ∨ seg = ['.']
    · rw [if_pos h1] at hs
      exact ih stack hst (fun t ht => hin t (List.mem_cons_of_mem seg ht)) s hs
    · rw [if_neg h1] at hs
      by_cases h2 : seg = ['.', '.']
      · rw [if_pos h2, if_pos rfl] at hs
        exact ih stack.tail (fun t ht => hst t (List.mem_of_mem_tail ht))
          (fun t ht => hin t (List.mem_cons_of_mem seg ht)) s hs
      · rw [if_neg h2] at hs
        push_neg at h1
        have hseg : okSeg seg :=
          ⟨h1.1, h1.2, h2, hin seg (List.mem_cons_self seg rest)⟩
        refine ih (seg :: stack) ?_ (fun t ht => hin t (List.mem_cons_of_mem seg ht)) s hs
        intro t ht
        rcases List.mem_cons.mp ht with h | h
        · exact h ▸ hseg
        · exact hst t h

theorem cleanStack_fixed_ok :
    ∀ (segs stack : List (List Char)),
      (∀ s ∈ segs, s ≠ [] ∧ s ≠ ['.'] ∧ s ≠ ['.', '.']) →
      cleanStack true stack segs = stack.reverse ++ segs := by
  intro segs
  induction segs with
  | nil =>
    intro stack _
    rw [cleanStack, List.append_nil]
  | cons seg rest ih =>
    intro stack hg
    have hseg := hg seg (List.mem_cons_self seg rest)
    rw [cleanStack]
    rw [if_neg (by rintro (h | h) <;> [exact hseg.1 h; exact hseg.2.1 h])]
    rw [if_neg hseg.2.2]
    rw [ih (seg :: stack) (fun t ht => hg t (List.mem_cons_of_mem seg ht))]
    rw [List.reverse_cons, List.append_assoc]
    rfl

theorem okSeg_lower (s : List Char) (h : okSeg s) : okSeg (toLowerL s) := by
  obtain ⟨h1, h2, h3, h4⟩ := h
  refine ⟨?_, ?_, ?_, ?_⟩
  · intro hm
    exact h1 (List.map_eq_nil.mp hm)
  · intro hm
    exact h2 (toLowerL_singleton_fix (by decide) s hm)
  · intro hm
    exact h3 (toLowerL_pair_fix (by decide) (by decide) s hm)
  · exact toLowerL_not_mem (by decide) s h4

theorem drop_after_slash :
    ∀ (segs : List (List Char)), (∀ s ∈ segs, s ≠ [] ∧ '/' ∉ s) →
      ∀ j : Nat, (joinSegs segs).get? j = some '/' →
        ∃ segs', segs' <:+ segs ∧ (joinSegs segs).drop (j + 1) = joinSegs segs' := by
  intro segs
  induction segs with
  | nil =>
    intro _ j hj
    rw [show joinSegs [] = [] from rfl] at hj
    cases j <;> cases hj
  | cons s ss ih =>
    intro hok j hj
    cases ss with
    | nil =>
      rw [show joinSegs [s] = s from rfl] at hj
      exact absurd (List.get?_mem hj) (hok s (List.mem_cons_self s [])).2
    | cons s2 ss2 =>
      rw [joinSegs_pair] at hj
      by_cases hlt : j < s.length
      · rw [List.get?_append hlt] at hj
        exact absurd (List.get?_mem hj) (hok s (List.mem_cons_self s _)).2
      · push_neg at hlt
        by_cases heq : j = s.length
        · refine ⟨s2 :: ss2, List.suffix_cons s (s2 :: ss2), ?_⟩
          rw [joinSegs_pair]
          have h1 : j + 1 = s.length + 1 := by omega
          rw [h1, List.drop_append 1]
          rfl
        · have hgt : s.length < j := by omega
          have hk : j = s.length + (j - s.length - 1) + 1 := by omega
          rw [List.get?_append_right (by omega)] at hj
          have hj2 : (joinSegs (s2 :: ss2)).get? (j - s.length - 1) = some '/' := by
            have h2 : j - s.length = (j - s.length - 1) + 1 := by omega
            rw [h2] at hj
            exact hj
          obtain ⟨segs', hsfx, hdrop⟩ := ih
            (fun t ht => hok t (List.mem_cons_of_mem s ht)) (j - s.length - 1) hj2
          refine ⟨segs', hsfx.trans (List.suffix_cons s (s2 :: ss2)), ?_⟩
          rw [joinSegs_pair]
          have h3 : j + 1 = s.length + (j - s.length - 1 + 2) := by omega
          rw [h3, List.drop_append (j - s.length - 1 + 2)]
          rw [show ('/' :: joinSegs (s2 :: ss2)).drop (j - s.length - 1 + 2) =
            (joinSegs (s2 :: ss2)).drop (j - s.length - 1 + 1) from rfl]
          exact hdrop

/-- C10 amended: provided the raw request path begins with '/' (as the
HTTP transport guarantees for origin-form requests) and the winning
route's match ends immediately after a '/' of the cleaned path (the
documented convention that route patterns must match the trailing
slash), the resolver's asset path contains no ".." segment and no
leading slash, and cleaning it on top of any root segment stack leaves
the root intact — the joined filesystem path stays inside the root. -/
theorem c10_no_traversal_amended (routes : List CompiledSearchPath) (p2 : List Char)
    (he : 1 ≤ (findLoop (toLowerL (cleanPath ('/' :: p2))) (none, 0) routes).2)
    (hslash : (toLowerL (cleanPath ('/' :: p2))).get?
      ((findLoop (toLowerL (cleanPath ('/' :: p2))) (none, 0) routes).2 - 1) =
      some '/') :
    hasDotDotSeg (findSearchPath routes ('/' :: p2)).2 = false ∧
    (findSearchPath routes ('/' :: p2)).2.head? ≠ some '/' ∧
    (∀ rs, cleanStack true rs (splitSeg (findSearchPath routes ('/' :: p2)).2) =
      rs.reverse ++ cleanStack true [] (splitSeg (findSearchPath routes ('/' :: p2)).2)) := by
  have hout : ∀ s ∈ cleanStack true [] (splitSeg ('/' :: p2)), okSeg s :=
    cleanStack_ok _ [] (fun t ht => absurd ht (List.not_mem_nil t))
      (splitSeg_no_slash _)
  have hout2 : ∀ s ∈ (cleanStack true [] (splitSeg ('/' :: p2))).map toLowerL, okSeg s := by
    intro s hs
    rcases List.mem_map.mp hs with ⟨t, ht, hte⟩
    exact hte ▸ okSeg_lower t (hout t ht)
  have hcleq : toLowerL (cleanPath ('/' :: p2)) =
      '/' :: joinSegs ((cleanStack true [] (splitSeg ('/' :: p2))).map toLowerL) := by
    rw [cleanPath, if_neg (List.cons_ne_nil '/' p2),
      if_pos (show ('/' :: p2).head? = some '/' from rfl)]
    rw [toLowerL, List.map_cons, show Char.toLower '/' = '/' from by decide]
    rw [show List.map Char.toLower
        (joinSegs (cleanStack true [] (splitSeg ('/' :: p2)))) =
      toLowerL (joinSegs (cleanStack true [] (splitSeg ('/' :: p2)))) from rfl]
    rw [toLowerL_joinSegs]
  have hasset : (findSearchPath routes ('/' :: p2)).2 =
      (toLowerL (cleanPath ('/' :: p2))).drop
        ((findLoop (toLowerL (cleanPath ('/' :: p2))) (none, 0) routes).2) := rfl
  set q := (findLoop (toLowerL (cleanPath ('/' :: p2))) (none, 0) routes).2 with hq
  have hsegs : ∃ segs', (∀ s ∈ segs', okSeg s) ∧
      (findSearchPath routes ('/' :: p2)).2 = joinSegs segs' := by
    by_cases he1 : q = 1
    · refine ⟨(cleanStack true [] (splitSeg ('/' :: p2))).map toLowerL, hout2, ?_⟩
      rw [hasset, he1, hcleq]
      rfl
    · have he2 : 2 ≤ q := by omega
      have hj : (joinSegs ((cleanStack true [] (splitSeg ('/' :: p2))).map toLowerL)).get?
          (q - 2) = some '/' := by
        rw [hcleq] at hslash
        have h1 : q - 1 = (q - 2) + 1 := by omega
        rw [h1] at hslash
        exact hslash
      obtain ⟨segs', hsfx, hdropEq⟩ := drop_after_slash
        ((cleanStack true [] (splitSeg ('/' :: p2))).map toLowerL)
        (fun t ht => ⟨(hout2 t ht).1, (hout2 t ht).2.2.2⟩) (q - 2) hj
      refine ⟨segs', fun s hs => hout2 s (hsfx.subset hs), ?_⟩
      rw [hasset, hcleq]
      have h2 : q = (q - 2 + 1) + 1 := by omega
      rw [h2]
      rw [show ('/' :: joinSegs ((cleanStack true [] (splitSeg ('/' :: p2))).map toLowerL)).drop
          ((q - 2 + 1) + 1) =
        (joinSegs ((cleanStack true [] (splitSeg ('/' :: p2))).map toLowerL)).drop
          ((q - 2) + 1) from rfl]
      exact hdropEq
  obtain ⟨segs', hok, heq⟩ := hsegs
  refine ⟨?_, ?_, ?_⟩
  · rw [heq]
    cases segs' with
    | nil => decide
    | cons t ts =>
      rw [hasDotDotSeg, splitSeg_joinSegs (t :: ts) (List.cons_ne_nil t ts)
        (fun s hs => (hok s hs).2.2.2)]
      rw [List.any_eq_false]
      intro seg hseg
      have hne : seg ≠ ['.', '.'] := (hok seg hseg).2.2.1
      simpa using hne
  · rw [heq]
    cases segs' with
    | nil =>
      intro hc
      cases hc
    | cons t ts =>
      rcases ht : t with _ | ⟨c, t2⟩
      · exact absurd ht (hok t (List.mem_cons_self t ts)).1
      · have hcne : c ≠ '/' := by
          intro hc
          exact (hok t (List.mem_cons_self t ts)).2.2.2
            (by rw [ht, hc]; exact List.mem_cons_self _ _)
        cases ts with
        | nil =>
          rw [show joinSegs [c :: t2] = c :: t2 from rfl]
          intro hc
          exact hcne (Option.some.inj hc)
        | cons t3 ts3 =>
          rw [joinSegs_pair, List.cons_append]
          intro hc
          exact hcne (Option.some.inj hc)
  · intro rs
    rw [heq]
    cases segs' with
    | nil =>
      rw [show joinSegs [] = [] from rfl]
      rw [show splitSeg ([] : List Char) = [[]] from rfl]
      rw [cleanStack, if_pos (Or.inl rfl), cleanStack]
      rw [cleanStack, if_pos (Or.inl rfl), cleanStack]
      simp
    | cons t ts =>
      rw [splitSeg_joinSegs (t :: ts) (List.cons_ne_nil t ts)
        (fun s hs => (hok s hs).2.2.2)]
      rw [cleanStack_fixed_ok (t :: ts) rs
        (fun s hs => ⟨(hok s hs).1, (hok s hs).2.1, (hok s hs).2.2.1⟩)]
      rw [cleanStack_fixed_ok (t :: ts) []
        (fun s hs => ⟨(hok s hs).1, (hok s hs).2.1, (hok s hs).2.2.1⟩)]
      rfl

/-- Witness for C10's amended statement at a concrete route and path. -/
theorem c10_no_traversal_amended_witness :
    1 ≤ (findLoop (toLowerL (cleanPath ('/' :: "a/b".toList))) (none, 0) [routeA]).2 ∧
    hasDotDotSeg (findSearchPath [routeA] ('/' :: "a/b".toList)).2 = false :=
  ⟨by decide,
    (c10_no_traversal_amended [routeA] ("a/b".toList) (by decide) (by decide)).1⟩

/-! ## C5: reload locking -/

/-- C5 counterexample: on a concrete one-route configuration the
reload scans the directory while holding the write lock — the claimed
"no lock held during filesystem scanning" is false on the code, which
locks `searchPathsMutex` before any `scandir` call. -/
theorem c5_reload_lock_counterexample :
    scansWhileLocked false
      (reloadTrace [("^/".toList, ["quake2/baseq2".toList])]) = true := by
  decide

theorem scans_segment_locked (ds : List (List Char)) (rest : List RlEvent) :
    scansWhileUnlocked true (ds.map RlEvent.scanDir ++ rest) =
      scansWhileUnlocked true rest := by
  induction ds with
  | nil => rfl
  | cons d ds2 ih =>
    rw [List.map_cons, List.cons_append, scansWhileUnlocked]
    simp only [Bool.not_true, Bool.false_or]
    exact ih

theorem writes_segment_locked (ds : List (List Char)) (rest : List RlEvent) :
    writesWhileUnlocked true (ds.map RlEvent.scanDir ++ rest) =
      writesWhileUnlocked true rest := by
  induction ds with
  | nil => rfl
  | cons d ds2 ih =>
    rw [List.map_cons, List.cons_append, writesWhileUnlocked]
    exact ih

/-- C5 amended: the reload coordinator acquires the write lock before
doing anything, performs every directory scan and every write of the
published table while holding that lock (blocking concurrent lookups
for the duration of the filesystem scan, contrary to the claimed
lock-free rebuild), and releases the lock only at the end — so every
lookup, which takes the read lock, still observes either the entirely
old or the entirely new table, never a mixture. -/
theorem c5_reload_lock_amended (cfg : List (List Char × List (List Char))) :
    reloadTrace cfg ≠ [] ∧
    (reloadTrace cfg).head? = some RlEvent.lockW ∧
    (reloadTrace cfg).getLast? = some RlEvent.unlockW ∧
    scansWhileUnlocked false (reloadTrace cfg) = false ∧
    writesWhileUnlocked false (reloadTrace cfg) = false := by
  refine ⟨by simp [reloadTrace], by simp [reloadTrace], ?_, ?_, ?_⟩
  · have hshape : ∀ cfg2 : List (List Char × List (List Char)),
        ∃ l, List.foldr
          (fun c acc => (c.2.map RlEvent.scanDir) ++ RlEvent.tableWrite :: acc)
          [RlEvent.unlockW] cfg2 = l ++ [RlEvent.unlockW] := by
      intro cfg2
      induction cfg2 with
      | nil => exact ⟨[], rfl⟩
      | cons c cfg3 ih =>
        obtain ⟨l, hl⟩ := ih
        refine ⟨(c.2.map RlEvent.scanDir) ++ RlEvent.tableWrite :: l, ?_⟩
        rw [List.foldr_cons, hl, List.append_assoc]
        rfl
    obtain ⟨l, hl⟩ := hshape cfg
    rw [reloadTrace, hl]
    rw [show RlEvent.lockW :: RlEvent.tableWrite :: (l ++ [RlEvent.unlockW]) =
      (RlEvent.lockW :: RlEvent.tableWrite :: l) ++ [RlEvent.unlockW] from rfl]
    exact List.getLast?_concat _
  · rw [reloadTrace, scansWhileUnlocked, scansWhileUnlocked]
    induction cfg with
    | nil => rfl
    | cons c cfg2 ih =>
      rw [List.foldr_cons, scans_segment_locked, scansWhileUnlocked]
      exact ih
  · rw [reloadTrace, writesWhileUnlocked, writesWhileUnlocked]
    simp only [Bool.not_true, Bool.false_or]
    induction cfg with
    | nil => rfl
    | cons c cfg2 ih =>
      rw [List.foldr_cons, writes_segment_locked, writesWhileUnlocked]
      simp only [Bool.not_true, Bool.false_or]
      exact ih

/-- C7 counterexample: a 3-byte name containing an embedded zero byte
is accepted by `Create` (it is within the 56-byte limit) but reads
back truncated at the zero byte, so the round trip does not return
identical names. -/
theorem c7_roundtrip_counterexample :
    roundTripNames [([97, 0, 98], ([] : List Nat))] = some [[97]] ∧
    [[97]] ≠ [[97, 0, 98]] := ⟨by decide, by decide⟩

theorem byteAt_append (xs ys : List Nat) (i : Nat) :
    byteAt (xs ++ ys) (xs.length + i) = byteAt ys i := by
  rw [byteAt, byteAt, List.getD_append_right _ _ _ _ (Nat.le_add_right _ _)]
  congr 1
  omega

theorem readU32_append (xs ys : List Nat) (i : Nat) :
    readU32 (xs ++ ys) (xs.length + i) = readU32 ys i := by
  rw [readU32, readU32,
    show xs.length + i + 1 = xs.length + (i + 1) from by ring,
    show xs.length + i + 2 = xs.length + (i + 2) from by ring,
    show xs.length + i + 3 = xs.length + (i + 3) from by ring,
    byteAt_append, byteAt_append, byteAt_append, byteAt_append]

theorem readU32_le32 (v : Nat) (rest : List Nat) (h : v < 2 ^ 32) :
    readU32 (le32 v ++ rest) 0 = v := by
  simp only [readU32, byteAt, le32, List.cons_append, List.nil_append,
    List.getD_cons_zero, List.getD_cons_succ]
  omega

theorem byteAt_drop (l : List Nat) : ∀ (n i : Nat), byteAt (l.drop n) i = byteAt l (n + i) := by
  induction l with
  | nil =>
    intro n i
    rw [List.drop_nil]
    simp [byteAt]
  | cons x xs ih =>
    intro n i
    cases n with
    | zero => rw [List.drop_zero, Nat.zero_add]
    | succ n2 =>
      rw [List.drop_succ_cons, ih n2 i,
        show Nat.succ n2 + i = Nat.succ (n2 + i) from by omega]
      rfl

theorem readU32_drop (l : List Nat) (n i : Nat) :
    readU32 (l.drop n) i = readU32 l (n + i) := by
  rw [readU32, readU32, byteAt_drop, byteAt_drop, byteAt_drop, byteAt_drop,
    show n + i + 1 = n + (i + 1) from by ring,
    show n + i + 2 = n + (i + 2) from by ring,
    show n + i + 3 = n + (i + 3) from by ring]

theorem pad_length (name : List Nat) (h : name.length ≤ 56) :
    (name ++ List.replicate (56 - name.length) 0).length = 56 := by
  rw [List.length_append, List.length_replicate]
  omega

theorem encEntry_length (f : WFile) (h : f.name.length ≤ 56) :
    (encEntry f).length = 64 := by
  rw [encEntry, List.length_append, List.length_append, pad_length f.name h]
  rfl

theorem takeName_pad_gen (name : List Nat) (h0 : (0 : Nat) ∉ name) :
    ∀ k, takeName (name ++ List.replicate k 0) = name := by
  induction name with
  | nil =>
    intro k
    cases k with
    | zero => rfl
    | succ k2 => rfl
  | cons b bs ih =>
    intro k
    rw [List.cons_append, takeName, List.takeWhile_cons]
    have hb : b ≠ 0 := fun hc => h0 (hc ▸ List.mem_cons_self b bs)
    rw [if_pos (by simpa using hb)]
    have h2 := ih (fun hc => h0 (List.mem_cons_of_mem b hc)) k
    rw [takeName] at h2
    rw [h2]

theorem takeName_pad (name : List Nat) (h0 : (0 : Nat) ∉ name) :
    takeName (name ++ List.replicate (56 - name.length) 0) = name :=
  takeName_pad_gen name h0 _

theorem setLastLen_cons_ne (g : WFile) (t : List WFile) (off : Nat) (h : t ≠ []) :
    setLastLen (g :: t) off = g :: setLastLen t off := by
  cases t with
  | nil => exact absurd rfl h
  | cons x t2 => rfl

theorem zeroLast_cons_ne (g : WFile) (t : List WFile) (h : t ≠ []) :
    zeroLast (g :: t) = g :: zeroLast t := by
  cases t with
  | nil => exact absurd rfl h
  | cons x t2 => rfl

theorem setLastLen_append_single (fs : List WFile) (f : WFile) (off : Nat) :
    setLastLen (fs ++ [f]) off = fs ++ [⟨f.name, f.filepos, off - f.filepos⟩] := by
  induction fs with
  | nil => rfl
  | cons g fs2 ih =>
    rw [List.cons_append, setLastLen_cons_ne g (fs2 ++ [f]) off (by simp), ih]
    rfl

theorem zeroLast_append_single (fs : List WFile) (f : WFile) :
    zeroLast (fs ++ [f]) = fs ++ [⟨f.name, f.filepos, 0⟩] := by
  induction fs with
  | nil => rfl
  | cons g fs2 ih =>
    rw [List.cons_append, zeroLast_cons_ne g (fs2 ++ [f]) (by simp), ih]
    rfl

theorem totalLen_append (es : List (List Nat × List Nat)) (e : List Nat × List Nat) :
    totalLen (es ++ [e]) = totalLen es + e.2.length := by
  induction es with
  | nil =>
    rw [List.nil_append, totalLen, totalLen, totalLen]
    omega
  | cons x es2 ih =>
    rw [List.cons_append, totalLen, ih, totalLen]
    omega

theorem contentsFrom_append (es : List (List Nat × List Nat)) (e : List Nat × List Nat) :
    contentsFrom (es ++ [e]) = contentsFrom es ++ e.2 := by
  induction es with
  | nil =>
    rw [List.nil_append, contentsFrom, contentsFrom, contentsFrom, List.append_nil,
      List.nil_append]
  | cons x es2 ih =>
    rw [List.cons_append, contentsFrom, ih, contentsFrom, List.append_assoc]

theorem wfilesFrom_append (es : List (List Nat × List Nat)) (e : List Nat × List Nat) :
    ∀ b, wfilesFrom b (es ++ [e]) =
      wfilesFrom b es ++ [⟨e.1, b + totalLen es, e.2.length⟩] := by
  induction es with
  | nil =>
    intro b
    rw [List.nil_append, wfilesFrom, wfilesFrom, wfilesFrom, totalLen]
    rfl
  | cons x es2 ih =>
    intro b
    rw [List.cons_append, wfilesFrom, ih (b + x.2.length), wfilesFrom, totalLen,
      List.cons_append]
    rw [show b + x.2.length + totalLen es2 = b + (x.2.length + totalLen es2) from by ring]

theorem wfilesFrom_length (es : List (List Nat × List Nat)) :
    ∀ b, (wfilesFrom b es).length = es.length := by
  induction es with
  | nil => intro b; rfl
  | cons x es2 ih =>
    intro b
    rw [wfilesFrom, List.length_cons, List.length_cons, ih]

theorem contentsFrom_length (es : List (List Nat × List Nat)) :
    (contentsFrom es).length = totalLen es := by
  induction es with
  | nil => rfl
  | cons x es2 ih =>
    rw [contentsFrom, totalLen, List.length_append, ih]

theorem encDir_cons (f : WFile) (fs : List WFile) :
    encDir (f :: fs) = encEntry f ++ encDir fs := rfl

theorem encDir_length (fs : List WFile) (h : ∀ f ∈ fs, f.name.length ≤ 56) :
    (encDir fs).length = 64 * fs.length := by
  induction fs with
  | nil => rfl
  | cons f fs2 ih =>
    rw [encDir_cons, List.length_append, encEntry_length f (h f (List.mem_cons_self f fs2)),
      ih (fun g hg => h g (List.mem_cons_of_mem f hg)), List.length_cons]
    ring

theorem zeroLast_single (f : WFile) : zeroLast [f] = [⟨f.name, f.filepos, 0⟩] := rfl

theorem setLastLen_single (f : WFile) (off : Nat) :
    setLastLen [f] off = [⟨f.name, f.filepos, off - f.filepos⟩] := rfl

theorem zeroLast_ne_nil (l : List WFile) (h : l ≠ []) : zeroLast l ≠ [] := by
  cases l with
  | nil => exact absurd rfl h
  | cons f t =>
    cases t with
    | nil =>
      rw [zeroLast_single]
      exact List.cons_ne_nil _ _
    | cons g t2 =>
      rw [zeroLast_cons_ne f (g :: t2) (List.cons_ne_nil _ _)]
      exact List.cons_ne_nil _ _

theorem wfilesFrom_cons (b : Nat) (e : List Nat × List Nat) (rest : List (List Nat × List Nat)) :
    wfilesFrom b (e :: rest) = ⟨e.1, b, e.2.length⟩ :: wfilesFrom (b + e.2.length) rest := rfl

theorem setLast_zero_cancel (es : List (List Nat × List Nat)) :
    ∀ b, setLastLen (zeroLast (wfilesFrom b es)) (b + totalLen es) = wfilesFrom b es := by
  induction es with
  | nil => intro b; rfl
  | cons e rest ih =>
    intro b
    cases rest with
    | nil =>
      rw [wfilesFrom_cons, wfilesFrom, totalLen, totalLen, zeroLast_single, setLastLen_single]
      show ([⟨e.1, b, b + (e.2.length + 0) - b⟩] : List WFile) = [⟨e.1, b, e.2.length⟩]
      congr 2
      omega
    | cons r2 rest2 =>
      have hne : wfilesFrom (b + e.2.length) (r2 :: rest2) ≠ [] := by
        rw [wfilesFrom_cons]
        exact List.cons_ne_nil _ _
      have hne2 : zeroLast (wfilesFrom (b + e.2.length) (r2 :: rest2)) ≠ [] :=
        zeroLast_ne_nil _ hne
      rw [wfilesFrom_cons, zeroLast_cons_ne _ _ hne, setLastLen_cons_ne _ _ _ hne2, totalLen,
        show b + (e.2.length + totalLen (r2 :: rest2))
            = (b + e.2.length) + totalLen (r2 :: rest2) from by ring,
        ih (b + e.2.length)]

theorem runEntries_append (xs ys : List (List Nat × List Nat)) :
    ∀ st, runEntries (xs ++ ys) st = runEntries xs st >>= runEntries ys := by
  induction xs with
  | nil =>
    intro st
    rw [List.nil_append, runEntries, exBindOk]
  | cons x xs2 ih =>
    intro st
    rw [List.cons_append, runEntries, runEntries]
    cases hc : wcreate x.1 st with
    | error er => simp only [exBindErr]
    | ok st1 =>
      simp only [exBindOk]
      cases hw : wwrite x.2 st1 with
      | error er => simp only [exBindErr]
      | ok st2 =>
        simp only [exBindOk]
        exact ih st2

theorem runEntries_closed (es : List (List Nat × List Nat)) :
    (∀ p ∈ es, p.1.length ≤ 56) → es.length ≤ 4096 → 12 + totalLen es ≤ maxOffset →
    runEntries es newWriter =
      .ok ⟨contentsFrom es, zeroLast (wfilesFrom 12 es), 12 + totalLen es⟩ := by
  induction es using List.reverseRecOn with
  | nil => intro _ _ _; rfl
  | append_singleton es e ih =>
    intro hn hcnt htot
    rw [totalLen_append] at htot
    rw [List.length_append, List.length_cons, List.length_nil] at hcnt
    have hpre := ih (fun p hp => hn p (List.mem_append_left _ hp)) (by omega) (by omega)
    rw [runEntries_append, hpre, exBindOk, runEntries]
    have hfiles : setLastLen (zeroLast (wfilesFrom 12 es)) (12 + totalLen es)
        = wfilesFrom 12 es := setLast_zero_cancel es 12
    have hname : ¬ (e.1.length > maxFileName) := by
      have := hn e (List.mem_append_right _ (List.mem_singleton.mpr rfl))
      unfold maxFileName
      omega
    have hcount : ¬ ((wfilesFrom 12 es).length ≥ maxFiles) := by
      rw [wfilesFrom_length]
      unfold maxFiles
      omega
    simp only [wcreate, hfiles]
    rw [if_neg hname, if_neg hcount]
    simp only [exBindOk]
    have hlen0 : ¬ ((wfilesFrom 12 es ++ [(⟨e.1, 12 + totalLen es, 0⟩ : WFile)]).length = 0) := by
      simp
    have hbig : ¬ (12 + totalLen es > maxOffset - e.2.length) := by omega
    simp only [wwrite]
    rw [if_neg hlen0, if_neg hbig]
    simp only [exBindOk]
    rw [runEntries, contentsFrom_append, wfilesFrom_append, zeroLast_append_single,
      totalLen_append, Nat.add_assoc]

theorem writeAll_closed (es : List (List Nat × List Nat))
    (hn : ∀ p ∈ es, p.1.length ≤ 56) (hcnt : es.length ≤ 4096)
    (htot : 12 + totalLen es + 64 * es.length ≤ maxOffset) :
    writeAll es = .ok (le32 pakIdentVal ++ le32 (12 + totalLen es) ++
      le32 (64 * es.length) ++ contentsFrom es ++ encDir (wfilesFrom 12 es)) := by
  simp only [writeAll]
  rw [runEntries_closed es hn hcnt (by omega), exBindOk]
  have hfiles : setLastLen (zeroLast (wfilesFrom 12 es)) (12 + totalLen es)
      = wfilesFrom 12 es := setLast_zero_cancel es 12
  simp only [wclose, hfiles, wfilesFrom_length]
  have hofs : ¬ (12 + totalLen es > maxOffset - 64 * es.length) := by omega
  rw [if_neg hofs]

theorem readDir_enc (fs : List WFile) :
    (∀ f ∈ fs, f.name.length ≤ 56 ∧ (0 : Nat) ∉ f.name ∧ f.filepos + f.filelen ≤ maxOffset) →
    ∀ (d : List Nat) (pos : Nat), d.drop pos = encDir fs →
    readDir d pos fs.length =
      .ok (fs.map (fun f => (⟨f.name, f.filepos, f.filelen⟩ : PakFile))) := by
  induction fs with
  | nil => intro _ d pos _; rfl
  | cons f fs2 ih =>
    intro h d pos hdrop
    obtain ⟨hn56, hn0, hbound⟩ := h f (List.mem_cons_self f fs2)
    have hpadlen := pad_length f.name hn56
    have hlen_drop : (d.drop pos).length = 64 + (encDir fs2).length := by
      rw [hdrop, encDir_cons, List.length_append, encEntry_length f hn56]
    have hld := List.length_drop pos d
    have hrange : pos + 64 ≤ d.length := by omega
    have hsplit : d.drop pos = (f.name ++ List.replicate (56 - f.name.length) 0) ++
        (le32 f.filepos ++ (le32 f.filelen ++ encDir fs2)) := by
      rw [hdrop, encDir_cons, encEntry]
      simp only [List.append_assoc]
    have hfplt : f.filepos < 2 ^ 32 := by
      unfold maxOffset at hbound
      omega
    have hfllt : f.filelen < 2 ^ 32 := by
      unfold maxOffset at hbound
      omega
    have hfp : readU32 d (pos + 56) = f.filepos := by
      rw [← readU32_drop, hsplit]
      set pad := f.name ++ List.replicate (56 - f.name.length) 0 with hpaddef
      rw [show 56 = pad.length + 0 from by rw [hpadlen], readU32_append,
        readU32_le32 f.filepos _ hfplt]
    have hfl : readU32 d (pos + 60) = f.filelen := by
      rw [← readU32_drop, hsplit]
      set pad := f.name ++ List.replicate (56 - f.name.length) 0 with hpaddef
      rw [show pad ++ (le32 f.filepos ++ (le32 f.filelen ++ encDir fs2)) =
          (pad ++ le32 f.filepos) ++ (le32 f.filelen ++ encDir fs2) from by
          simp only [List.append_assoc],
        show 60 = (pad ++ le32 f.filepos).length + 0 from by
          rw [List.length_append, hpadlen]
          rfl,
        readU32_append, readU32_le32 f.filelen _ hfllt]
    have hname : extract d pos 56 = f.name ++ List.replicate (56 - f.name.length) 0 := by
      rw [extract, hsplit, List.take_left' hpadlen]
    have hre : readEntry d pos = .ok ⟨f.name, f.filepos, f.filelen⟩ := by
      simp only [readEntry, hfp, hfl]
      rw [if_pos hrange,
        if_neg (show ¬ (f.filelen > maxOffset) from by omega),
        if_neg (show ¬ (f.filepos > sub32 maxOffset f.filelen) from by
          rw [sub32_no_wrap f.filelen (by omega)]
          omega),
        hname, takeName_pad f.name hn0]
    have hdrop2 : d.drop (pos + 64) = encDir fs2 := by
      have h1 : d.drop (pos + 64) = (d.drop pos).drop 64 := by
        rw [List.drop_drop]
      rw [h1, hdrop, encDir_cons, List.drop_left' (encEntry_length f hn56)]
    rw [List.length_cons, readDir, hre]
    simp only [exBindOk]
    rw [ih (fun g hg => h g (List.mem_cons_of_mem f hg)) d (pos + 64) hdrop2]
    simp only [exBindOk]
    rw [List.map_cons]
    rfl

theorem wfilesFrom_mem_bound (es : List (List Nat × List Nat)) :
    ∀ b f, f ∈ wfilesFrom b es → f.filepos + f.filelen ≤ b + totalLen es ∧
      ∃ p ∈ es, f.name = p.1 ∧ f.filelen = p.2.length := by
  induction es with
  | nil =>
    intro b f hf
    exact absurd hf (List.not_mem_nil f)
  | cons e rest ih =>
    intro b f hf
    rw [wfilesFrom_cons] at hf
    rcases List.mem_cons.mp hf with hhead | htail
    · subst hhead
      refine ⟨show b + e.2.length ≤ b + totalLen (e :: rest) from by rw [totalLen]; omega,
        e, List.mem_cons_self e rest, rfl, rfl⟩
    · obtain ⟨hb, p, hp, hname, hlen⟩ := ih (b + e.2.length) f htail
      refine ⟨?_, p, List.mem_cons_of_mem e hp, hname, hlen⟩
      rw [totalLen]
      omega

theorem wfilesFrom_get (es : List (List Nat × List Nat)) :
    ∀ b i e, es.get? i = some e →
      (wfilesFrom b es).get? i = some ⟨e.1, b + totalLen (es.take i), e.2.length⟩ := by
  induction es with
  | nil =>
    intro b i e h
    exact Option.noConfusion ((List.get?_nil (n := i)) ▸ h)
  | cons x rest ih =>
    intro b i e h
    cases i with
    | zero =>
      have hx : x = e := Option.some.inj h
      subst hx
      rfl
    | succ i2 =>
      have h2 : rest.get? i2 = some e := h
      rw [show (wfilesFrom b (x :: rest)).get? (i2 + 1)
            = (wfilesFrom (b + x.2.length) rest).get? i2 from rfl,
        ih (b + x.2.length) i2 e h2,
        show (x :: rest).take (i2 + 1) = x :: rest.take i2 from rfl, totalLen,
        show b + (x.2.length + totalLen (rest.take i2))
            = b + x.2.length + totalLen (rest.take i2) from by ring]

theorem extract_contents (es : List (List Nat × List Nat)) :
    ∀ i e tail, es.get? i = some e →
      extract (contentsFrom es ++ tail) (totalLen (es.take i)) e.2.length = e.2 := by
  induction es with
  | nil =>
    intro i e tail h
    exact Option.noConfusion ((List.get?_nil (n := i)) ▸ h)
  | cons x rest ih =>
    intro i e tail h
    cases i with
    | zero =>
      have hx : x = e := Option.some.inj h
      subst hx
      rw [show totalLen (List.take 0 (x :: rest)) = 0 from rfl, extract, List.drop_zero,
        contentsFrom, List.append_assoc, List.take_left]
    | succ i2 =>
      have h2 : rest.get? i2 = some e := h
      have hrec := ih i2 e tail h2
      rw [extract] at hrec
      rw [show (x :: rest).take (i2 + 1) = x :: rest.take i2 from rfl, totalLen,
        contentsFrom, List.append_assoc, extract, ← List.drop_drop, List.drop_left]
      exact hrec

theorem le32_length (v : Nat) : (le32 v).length = 4 := rfl

/-- C7 (amended): for entry sequences whose names are at most 56 bytes
and contain no zero byte, with at most 4096 entries and
header + contents + directory fitting within `maxOffset`, running the
writer and then `Reader.init` on the produced bytes succeeds and yields
one directory entry per written file in order, with identical names,
and extracting each entry's `[filePos, filePos+fileLen)` range from the
archive returns exactly the bytes that were written for it. -/
theorem c7_writer_reader_roundtrip (es : List (List Nat × List Nat))
    (hn : ∀ p ∈ es, p.1.length ≤ 56 ∧ (0 : Nat) ∉ p.1)
    (hcnt : es.length ≤ 4096)
    (htot : 12 + totalLen es + 64 * es.length ≤ maxOffset) :
    ∃ bytes, writeAll es = .ok bytes ∧
      ∃ fs, pakInit bytes = .ok fs ∧ fs.length = es.length ∧
        ∀ i e, es.get? i = some e → ∃ f, fs.get? i = some f ∧
          f.name = e.1 ∧ extract bytes f.filepos f.filelen = e.2 := by
  have hw := writeAll_closed es (fun p hp => (hn p hp).1) hcnt htot
  refine ⟨_, hw, ?_⟩
  have hmax : (2 : Nat) ^ 31 - 1 = maxOffset := rfl
  have hofslt : 12 + totalLen es < 2 ^ 32 := by
    rw [← hmax] at htot
    omega
  have hdllt : 64 * es.length < 2 ^ 32 := by
    rw [← hmax] at htot
    omega
  have hassoc : le32 pakIdentVal ++ le32 (12 + totalLen es) ++ le32 (64 * es.length) ++
        contentsFrom es ++ encDir (wfilesFrom 12 es)
      = le32 pakIdentVal ++ (le32 (12 + totalLen es) ++ (le32 (64 * es.length) ++
        (contentsFrom es ++ encDir (wfilesFrom 12 es)))) := by
    simp only [List.append_assoc]
  have h0 : readU32 (le32 pakIdentVal ++ le32 (12 + totalLen es) ++ le32 (64 * es.length) ++
      contentsFrom es ++ encDir (wfilesFrom 12 es)) 0 = pakIdentVal := by
    rw [hassoc, readU32_le32 pakIdentVal _ (by decide)]
  have h4 : readU32 (le32 pakIdentVal ++ le32 (12 + totalLen es) ++ le32 (64 * es.length) ++
      contentsFrom es ++ encDir (wfilesFrom 12 es)) 4 = 12 + totalLen es := by
    rw [hassoc, show (4 : Nat) = (le32 pakIdentVal).length + 0 from rfl, readU32_append,
      readU32_le32 _ _ hofslt]
  have h8 : readU32 (le32 pakIdentVal ++ le32 (12 + totalLen es) ++ le32 (64 * es.length) ++
      contentsFrom es ++ encDir (wfilesFrom 12 es)) 8 = 64 * es.length := by
    have hg : le32 pakIdentVal ++ le32 (12 + totalLen es) ++ le32 (64 * es.length) ++
          contentsFrom es ++ encDir (wfilesFrom 12 es)
        = (le32 pakIdentVal ++ le32 (12 + totalLen es)) ++ (le32 (64 * es.length) ++
          (contentsFrom es ++ encDir (wfilesFrom 12 es))) := by
      simp only [List.append_assoc]
    rw [hg, show (8 : Nat) = (le32 pakIdentVal ++ le32 (12 + totalLen es)).length + 0 from rfl,
      readU32_append, readU32_le32 _ _ hdllt]
  have hshort : ¬ ((le32 pakIdentVal ++ le32 (12 + totalLen es) ++ le32 (64 * es.length) ++
      contentsFrom es ++ encDir (wfilesFrom 12 es)).length < 12) := by
    simp only [List.length_append, le32_length]
    omega
  have hmem : ∀ f ∈ wfilesFrom 12 es,
      f.name.length ≤ 56 ∧ (0 : Nat) ∉ f.name ∧ f.filepos + f.filelen ≤ maxOffset := by
    intro f hf
    obtain ⟨hb, p, hp, hnm, hfl⟩ := wfilesFrom_mem_bound es 12 f hf
    obtain ⟨h56, h0n⟩ := hn p hp
    exact ⟨hnm ▸ h56, hnm ▸ h0n, by omega⟩
  have hlen12 : (le32 pakIdentVal ++ le32 (12 + totalLen es) ++ le32 (64 * es.length) ++
      contentsFrom es).length = 12 + totalLen es := by
    simp only [List.length_append, le32_length, contentsFrom_length]
  have hdrop12 : (le32 pakIdentVal ++ le32 (12 + totalLen es) ++ le32 (64 * es.length) ++
        contentsFrom es ++ encDir (wfilesFrom 12 es)).drop (12 + totalLen es)
      = encDir (wfilesFrom 12 es) := List.drop_left' hlen12
  have hreadDir := readDir_enc (wfilesFrom 12 es) hmem _ (12 + totalLen es) hdrop12
  rw [wfilesFrom_length] at hreadDir
  refine ⟨List.map (fun f => (⟨f.name, f.filepos, f.filelen⟩ : PakFile)) (wfilesFrom 12 es),
    ?_, ?_, ?_⟩
  · simp only [pakInit, h0, h4, h8]
    rw [if_neg hshort, if_neg (show ¬ (pakIdentVal ≠ pakIdentVal) from fun hc => hc rfl),
      if_neg (show ¬ (64 * es.length % 64 ≠ 0) from by
        rw [Nat.mul_mod_right]
        exact fun hc => hc rfl),
      if_neg (show ¬ (64 * es.length / 64 > maxFiles) from by
        rw [Nat.mul_div_cancel_left es.length (show 0 < 64 from by norm_num)]
        unfold maxFiles
        omega),
      if_neg (show ¬ (12 + totalLen es > sub32 maxOffset (64 * es.length)) from by
        rw [sub32_no_wrap _ (by omega)]
        omega),
      Nat.mul_div_cancel_left es.length (show 0 < 64 from by norm_num), hreadDir]
  · rw [List.length_map, wfilesFrom_length]
  · intro i e h
    rw [List.get?_map, wfilesFrom_get es 12 i e h]
    refine ⟨_, rfl, rfl, ?_⟩
    have hg2 : le32 pakIdentVal ++ le32 (12 + totalLen es) ++ le32 (64 * es.length) ++
          contentsFrom es ++ encDir (wfilesFrom 12 es)
        = (le32 pakIdentVal ++ le32 (12 + totalLen es) ++ le32 (64 * es.length)) ++
          (contentsFrom es ++ encDir (wfilesFrom 12 es)) := by
      simp only [List.append_assoc]
    have hrec := extract_contents es i e (encDir (wfilesFrom 12 es)) h
    rw [extract] at hrec
    show extract _ (12 + totalLen (es.take i)) e.2.length = e.2
    rw [extract, hg2,
      show 12 + totalLen (es.take i)
          = (le32 pakIdentVal ++ le32 (12 + totalLen es) ++ le32 (64 * es.length)).length +
            totalLen (es.take i) from rfl,
      ← List.drop_drop, List.drop_left]
    exact hrec

theorem c7_writer_reader_roundtrip_witness :
    (∀ p ∈ [(([97] : List Nat), ([1, 2, 3] : List Nat))], p.1.length ≤ 56 ∧ (0 : Nat) ∉ p.1) ∧
    ([(([97] : List Nat), ([1, 2, 3] : List Nat))].length ≤ 4096) ∧
    (12 + totalLen [(([97] : List Nat), ([1, 2, 3] : List Nat))] +
      64 * [(([97] : List Nat), ([1, 2, 3] : List Nat))].length ≤ maxOffset) ∧
    (∃ bytes, writeAll [(([97] : List Nat), ([1, 2, 3] : List Nat))] = .ok bytes ∧
      ∃ fs, pakInit bytes = .ok fs ∧
        fs.length = [(([97] : List Nat), ([1, 2, 3] : List Nat))].length ∧
        ∀ i e, [(([97] : List Nat), ([1, 2, 3] : List Nat))].get? i = some e →
          ∃ f, fs.get? i = some f ∧ f.name = e.1 ∧ extract bytes f.filepos f.filelen = e.2) :=
  ⟨by decide, by decide, by decide,
    c7_writer_reader_roundtrip _ (by decide) (by decide) (by decide)⟩
